import Mathlib

/-!
Verification of the code-archaeologist analysis pipeline.

Shallow embedding of the Python services in `backend/app/services/`:
string-heuristic relationship detection (`relationship_detector.py`),
batched LLM enrichment (`llm_service.py`), the AST/regex structural
extractor (`ast_parser.py`) and the orchestrator (`analysis_service.py`).
Python strings are modelled as `List Char`; Python sets and dicts are
modelled as lists with membership/lookup semantics matching insertion
order; machine behaviour that can raise is modelled with `Except`/`Option`.
-/

namespace CodeArch

/-! ## Python string primitives -/

/-- Python whitespace class `\s` (`[ \t\n\r\f\v]`) used by `re` and `str.strip()`. -/
def pyIsSpace (c : Char) : Bool :=
  c = ' ' || c = '\t' || c = '\n' || c = '\r' || c = Char.ofNat 11 || c = Char.ofNat 12

/-- Python `\w` word-character class (ASCII, as used on identifier text). -/
def pyIsWord (c : Char) : Bool :=
  ('a' ≤ c && c ≤ 'z') || ('A' ≤ c && c ≤ 'Z') || ('0' ≤ c && c ≤ '9') || c = '_'

/-- Python `str.strip(chars)`: drop the listed characters from both ends. -/
def pyStripChars (chars : List Char) (s : List Char) : List Char :=
  ((s.dropWhile (chars.contains ·)).reverse.dropWhile (chars.contains ·)).reverse

/-- Python `str.strip()` (whitespace form). -/
def pyStripWs (s : List Char) : List Char :=
  ((s.dropWhile pyIsSpace).reverse.dropWhile pyIsSpace).reverse

/-- Worker for `pyReplace`; the fuel is an upper bound on the input length,
so it is never exhausted when the wrapper supplies `s.length`. -/
def pyReplaceAux (pat repl : List Char) : Nat → List Char → List Char
  | _, [] => []
  | 0, s => s
  | fuel + 1, c :: rest =>
    if pat ≠ [] ∧ pat.isPrefixOf (c :: rest) then
      repl ++ pyReplaceAux pat repl fuel (rest.drop (pat.length - 1))
    else
      c :: pyReplaceAux pat repl fuel rest

/-- Python `str.replace(old, new)` for a nonempty `old`: non-overlapping,
left-to-right replacement of every occurrence. -/
def pyReplace (pat repl : List Char) (s : List Char) : List Char :=
  pyReplaceAux pat repl s.length s

/-- Python `s.rsplit(".", 1)[0]`: everything before the last `"."`,
or the whole string when it has no `"."`. -/
def pyRsplitDotHead (s : List Char) : List Char :=
  if s.contains '.' then ((s.reverse.dropWhile (· ≠ '.')).tail).reverse else s

/-- Python `str.split(sep)` for a single-character separator. -/
def pySplitChar (sep : Char) (s : List Char) : List (List Char) :=
  s.splitOn sep

/-- Worker for `pySplitSeq`; the fuel is an upper bound on the input length. -/
def pySplitSeqAux (pat : List Char) : Nat → List Char → List (List Char)
  | _, [] => [[]]
  | 0, s => [s]
  | fuel + 1, c :: rest =>
    if pat ≠ [] ∧ pat.isPrefixOf (c :: rest) then
      [] :: pySplitSeqAux pat fuel (rest.drop (pat.length - 1))
    else
      match pySplitSeqAux pat fuel rest with
      | [] => [[c]]
      | p :: ps => (c :: p) :: ps

/-- Python `str.split(sep)` for a nonempty multi-character separator:
non-overlapping, left-to-right. -/
def pySplitSeq (pat : List Char) (s : List Char) : List (List Char) :=
  pySplitSeqAux pat s.length s

/-- Decimal digits to a natural number, as Python `int(...)` on a digit string. -/
def digitsToNat (ds : List Char) : Nat :=
  ds.foldl (fun acc c => acc * 10 + (c.toNat - '0'.toNat)) 0

end CodeArch

namespace RelationshipDetector

open CodeArch

/-!
### `RelationshipDetector._is_import_match`
(`backend/app/services/relationship_detector.py`, lines 224-255)
-/

/-- Embeds `import_path.replace(".", "/").strip("./ ")`. -/
def normalizeImportPath (import_path : String) : List Char :=
  pyStripChars ['.', '/', ' ']
    ((import_path.toList).map (fun c => if c = '.' then '/' else c))

/-- The normalized file base: `file_path.replace("\\", "/").lower()`,
extension removed with `rsplit(".", 1)[0]`, and, when the result ends in
`/__init__`, every occurrence of `/__init__` removed. -/
def normalizeFileBase (file_path : String) : List Char :=
  let file_normalized :=
    ((file_path.toList).map (fun c => if c = '\\' then '/' else c)).map Char.toLower
  let file_base := pyRsplitDotHead file_normalized
  if ("/__init__".toList).isSuffixOf file_base then
    pyReplace ("/__init__".toList) [] file_base
  else
    file_base

/-- Embeds `RelationshipDetector._is_import_match(import_path, file_path)`:
direct equality of normalized paths, or `file_base.startswith(import_normalized + "/")`. -/
def _is_import_match (import_path file_path : String) : Bool :=
  let import_normalized := normalizeImportPath import_path
  let file_base := normalizeFileBase file_path
  (file_base == import_normalized) ||
    ((import_normalized ++ ['/']).isPrefixOf file_base)

/-- Predicate written from the words of the specification for the import-match
claim: after normalization (dots to slashes; extension stripped; an
`index`/`__init__` suffix collapsed) the file path must equal the import
path or be nested exactly one level below it (`baseName + "/"` followed by
a single path segment). Used only to compare the claim against the code. -/
def claimImportMatch (import_path file_path : String) : Bool :=
  let import_normalized := normalizeImportPath import_path
  let file_normalized :=
    ((file_path.toList).map (fun c => if c = '\\' then '/' else c)).map Char.toLower
  let base0 := pyRsplitDotHead file_normalized
  let file_base :=
    if ("/__init__".toList).isSuffixOf base0 then
      base0.take (base0.length - "/__init__".length)
    else if ("/index".toList).isSuffixOf base0 then
      base0.take (base0.length - "/index".length)
    else base0
  (file_base == import_normalized) ||
    (((import_normalized ++ ['/']).isPrefixOf file_base) &&
      !((file_base.drop (import_normalized.length + 1)).contains '/'))

end RelationshipDetector


namespace LLMService

open CodeArch

/-!
### `LLMService._parse_numbered_list`
(`backend/app/services/llm_service.py`, lines 318-369)
-/

/-- Embeds `re.match` on the pattern (in double quotes) "^\s*(?:\[(\d+)\]|(\d+)[.)]\s)": leading whitespace,
then either `[digits]` or `digits` followed by `.`/`)` and one whitespace
character; returns the captured number.  Greedy matching needs no
backtracking here because the alternatives cannot start with whitespace and
a shortened digit run is always followed by a digit. -/
def matchNumberedItem (line : List Char) : Option Nat :=
  let rest := line.dropWhile pyIsSpace
  match rest with
  | '[' :: r1 =>
    let ds := r1.takeWhile Char.isDigit
    if ds ≠ [] ∧ (r1.drop ds.length).head? = some ']' then
      some (digitsToNat ds)
    else none
  | _ =>
    let ds := rest.takeWhile Char.isDigit
    if ds = [] then none
    else
      match rest.drop ds.length with
      | p :: w :: _ =>
        if (p = '.' ∨ p = ')') ∧ pyIsSpace w then some (digitsToNat ds) else none
      | _ => none

/-- Embeds `re.sub` removing the pattern "^\s*(?:\[\d+\]|\d+[.)]\s*)": remove the leading
numbered label if it is present (anchored pattern, so at most one
replacement); the `[n]` alternative is tried first. -/
def stripNumberedLabel (line : List Char) : List Char :=
  let rest := line.dropWhile pyIsSpace
  match rest with
  | '[' :: r1 =>
    let ds := r1.takeWhile Char.isDigit
    if ds ≠ [] ∧ (r1.drop ds.length).head? = some ']' then
      (r1.drop ds.length).drop 1
    else line
  | _ =>
    let ds := rest.takeWhile Char.isDigit
    if ds = [] then line
    else
      match rest.drop ds.length with
      | p :: r2 =>
        if p = '.' ∨ p = ')' then r2.dropWhile pyIsSpace else line
      | [] => line

/-- Embeds the single-space join of current_item, stripped. -/
def joinCurrentItem (current_item : List (List Char)) : List Char :=
  pyStripWs (List.intercalate [' '] current_item)

/-- The numbered-item accumulation loop of `_parse_numbered_list`:
a matching line closes the current item (when nonempty) and starts a new
one from the label-stripped text; other lines are appended (stripped) to
the current item when one is open, and dropped otherwise. -/
def parseLoop : List (List Char) → List (List Char) → List (List Char) →
    List (List Char)
  | [], items, current_item =>
    if current_item ≠ [] then items ++ [joinCurrentItem current_item] else items
  | line :: rest, items, current_item =>
    match matchNumberedItem line with
    | some _ =>
      let items' :=
        if current_item ≠ [] then items ++ [joinCurrentItem current_item] else items
      parseLoop rest items' [pyStripWs (stripNumberedLabel line)]
    | none =>
      if current_item ≠ [] then
        parseLoop rest items (current_item ++ [pyStripWs line])
      else
        parseLoop rest items current_item

/-- Embeds `LLMService._parse_numbered_list(response, expected_count)`. -/
def _parse_numbered_list (response : String) (expected_count : Nat) : List String :=
  let lines := pySplitChar '\n' (pyStripWs response.toList)
  let items := parseLoop lines [] []
  if items.length = expected_count then
    items.map List.asString
  else if items.length > expected_count then
    (items.take expected_count).map List.asString
  else
    let paragraphs :=
      ((pySplitSeq ['\n', '\n'] response.toList).map pyStripWs).filter (· ≠ [])
    if paragraphs.length ≥ expected_count then
      (paragraphs.take expected_count).map List.asString
    else
      (items ++ List.replicate (expected_count - items.length)
        ("Summary not available".toList)).map List.asString

end LLMService


namespace Settings

/-! Defaults from `backend/app/config.py`. -/

def LLM_BATCH_SIZE : Nat := 5
def LLM_MAX_CONCURRENT : Nat := 2
def BATCH_SIZE : Nat := 10
def ENABLE_RELATIONSHIP_DETECTION : Bool := true

end Settings

namespace LLMService

/-!
### `LLMService.explain_functions_batch`
(`backend/app/services/llm_service.py`, lines 262-294)

The loop `for i in range(0, len(functions), batch_size)` slices the input
into consecutive groups; `asyncio.gather(..., return_exceptions=True)`
yields one outcome per group in submission order (the semaphore bounds
concurrency but does not reorder results).  A group call is modelled as a
function to `Except`, error being a raised exception.
-/

/-- One enrichment input (a dict with keys name, code, language). -/
structure FuncInput where
  name : String
  code : String
  language : String
deriving DecidableEq

/-- Worker for `chunks`; the fuel is an upper bound on the input length. -/
def chunksAux (n : Nat) : Nat → List α → List (List α)
  | _, [] => []
  | 0, xs => [xs]
  | fuel + 1, x :: xs => (x :: xs).take n :: chunksAux n fuel (xs.drop (n - 1))

/-- The consecutive slices `xs[i:i+n]` for `i = 0, n, 2n, …`
(for `n ≥ 1`; `range` with step 0 is a Python error and never occurs). -/
def chunks (n : Nat) (xs : List α) : List (List α) :=
  chunksAux n xs.length xs

/-- Fixed placeholder substituted for every member of a failed group. -/
def explainPlaceholder : String := "Explanation generation failed"

/-- Embeds `LLMService.explain_functions_batch(functions)`, with the external
per-group LLM call passed in as `call`.  Mirrors the result loop: for group
`i`, a recomputed slice `functions[i*bs:(i+1)*bs]` sizes the placeholder
run on failure; a successful group contributes its own output list. -/
def explain_functions_batch (call : List FuncInput → Except String (List String))
    (functions : List FuncInput) : List String :=
  let batch_size := Settings.LLM_BATCH_SIZE
  let batch_results := (chunks batch_size functions).map call
  (batch_results.enum).foldl
    (fun all_explanations ir =>
      let batch := (functions.drop (ir.1 * batch_size)).take batch_size
      match ir.2 with
      | .error _ => all_explanations ++ List.replicate batch.length explainPlaceholder
      | .ok result => all_explanations ++ result)
    []

end LLMService

namespace ASTParser

open CodeArch

/-!
### `ASTParser.parse_file` and `ASTParser._fallback_extract`
(`backend/app/services/ast_parser.py`, lines 35-49 and 101-147)

The tree-sitter grammar is an external library: the precise-mode walk is
modelled as a parameter `tsExtract` returning `none` when the parse raises
(the `except` branch falls through to the regex fallback).  The regex
fallback itself is embedded below.
-/

structure EntityDict where
  name : String
  type : String
  start_line : Nat
  end_line : Nat
  code : String
deriving DecidableEq

/-- Embeds `re.match` on the pattern "^\s*KW\s+(\w+)" for a literal keyword `KW`
(`def` / `class`): captures the identifier. -/
def matchKeywordName (kw : List Char) (line : List Char) : Option (List Char) :=
  let rest := line.dropWhile pyIsSpace
  if kw.isPrefixOf rest then
    let r2 := rest.drop kw.length
    if (r2.takeWhile pyIsSpace) ≠ [] then
      let name := (r2.dropWhile pyIsSpace).takeWhile pyIsWord
      if name ≠ [] then some name else none
    else none
  else none

/-- Attempt `function\s+(\w+)` at the current position. -/
def jsFunctionKwAt (s : List Char) : Option (List Char) :=
  if ("function".toList).isPrefixOf s then
    let r := s.drop 8
    if (r.takeWhile pyIsSpace) ≠ [] then
      let name := (r.dropWhile pyIsSpace).takeWhile pyIsWord
      if name ≠ [] then some name else none
    else none
  else none

/-- Attempt `(?:async\s+)?function\s+(\w+)` at the current position: the
greedy optional group tries the `async` form first. -/
def jsFuncDeclAt (s : List Char) : Option (List Char) :=
  let withAsync :=
    if ("async".toList).isPrefixOf s then
      let r := s.drop 5
      if (r.takeWhile pyIsSpace) ≠ [] then jsFunctionKwAt (r.dropWhile pyIsSpace)
      else none
    else none
  withAsync <|> jsFunctionKwAt s

/-- Attempt `(?:const|let|var)\s+(\w+)\s*=\s*(?:async\s+)?\(` at the current
position (alternatives in order). -/
def jsArrowDeclAt (s : List Char) : Option (List Char) :=
  let afterKw :=
    if ("const".toList).isPrefixOf s then some (s.drop 5)
    else if ("let".toList).isPrefixOf s then some (s.drop 3)
    else if ("var".toList).isPrefixOf s then some (s.drop 3)
    else none
  match afterKw with
  | none => none
  | some r =>
    if (r.takeWhile pyIsSpace) ≠ [] then
      let name := ((r.dropWhile pyIsSpace).takeWhile pyIsWord)
      if name ≠ [] then
        let r2 := ((r.dropWhile pyIsSpace).drop name.length).dropWhile pyIsSpace
        match r2 with
        | '=' :: r3 =>
          let r4 := r3.dropWhile pyIsSpace
          let withAsync :=
            if ("async".toList).isPrefixOf r4 then
              let r5 := r4.drop 5
              if (r5.takeWhile pyIsSpace) ≠ [] then
                if (r5.dropWhile pyIsSpace).head? = some '(' then some name else none
              else none
            else none
          match withAsync with
          | some n => some n
          | none => if r4.head? = some '(' then some name else none
        | _ => none
      else none
    else none

/-- Embeds `re.search`: try a position matcher at every suffix, leftmost first. -/
def reSearch (m : List Char → Option (List Char)) : List Char → Option (List Char)
  | [] => m []
  | c :: rest =>
    match m (c :: rest) with
    | some r => some r
    | none => reSearch m rest

/-- Embeds `ASTParser._fallback_extract(content, language)`. -/
def _fallback_extract (content : String) (language : String) : List EntityDict :=
  let lines := (pySplitChar '\n' content.toList).enum
  if language = "python" then
    lines.foldl
      (fun entities il =>
        let i := il.1 + 1
        let line := il.2
        match matchKeywordName ("def".toList) line with
        | some name =>
          entities ++ [⟨name.asString, "function", i, i, (pyStripWs line).asString⟩]
        | none =>
          match matchKeywordName ("class".toList) line with
          | some name =>
            entities ++ [⟨name.asString, "class", i, i, (pyStripWs line).asString⟩]
          | none => entities)
      []
  else
    lines.foldl
      (fun entities il =>
        let i := il.1 + 1
        let line := il.2
        let funcEntities :=
          match reSearch jsFuncDeclAt line with
          | some name =>
            entities ++ [⟨name.asString, "function", i, i, (pyStripWs line).asString⟩]
          | none =>
            match reSearch jsArrowDeclAt line with
            | some name =>
              entities ++ [⟨name.asString, "function", i, i, (pyStripWs line).asString⟩]
            | none => entities
        match matchKeywordName ("class".toList) line with
        | some name =>
          funcEntities ++ [⟨name.asString, "class", i, i, (pyStripWs line).asString⟩]
        | none => funcEntities)
      []

/-- Embeds `ASTParser.parse_file(content, language)`: the explicit allow-list guard,
then the precise tree-sitter walk (external, `none` on parse error) with
regex fallback. -/
def parse_file (tree_sitter_ok : Bool) (parsers : List String)
    (tsExtract : String → String → Option (List EntityDict))
    (content : String) (language : String) : List EntityDict :=
  if language ∉ ["python", "javascript", "typescript"] then []
  else if tree_sitter_ok ∧ language ∈ parsers then
    match tsExtract language content with
    | some entities => entities
    | none => _fallback_extract content language
  else
    _fallback_extract content language

end ASTParser


namespace Models

/-! Typed records from `backend/app/models.py`, as needed by the services. -/

inductive EntityType where
  | function | cls | method | variable | imported | module
deriving DecidableEq

/-- Embeds `EntityType.value` strings. -/
def EntityType.value : EntityType → String
  | .function => "function"
  | .cls => "class"
  | .method => "method"
  | .variable => "variable"
  | .imported => "import"
  | .module => "module"

inductive RelationshipType where
  | calls | inherits | imports | contains | references
deriving DecidableEq

structure PyFile where
  id : Nat
  repo_id : Nat
  path : String
deriving DecidableEq

structure PyEntity where
  id : Nat
  repo_id : Nat
  file_id : Nat
  name : String
  type : EntityType
  code_snippet : Option String
deriving DecidableEq

/-- Metadata payload of an `imports` relationship; `imported_name` carries
the literal import string (the key named import_name in the source). -/
structure RelMetadata where
  source_file : String
  target_file : String
  imported_name : String
deriving DecidableEq

structure PyRelationship where
  source_entity_id : Nat
  target_entity_id : Option Nat
  relationship_type : RelationshipType
  rel_metadata : Option RelMetadata
deriving DecidableEq

/-- The storage rows the relationship detector reads. -/
structure DB where
  entities : List PyEntity
  files : List PyFile
  relationships : List PyRelationship
deriving DecidableEq

end Models

namespace RelationshipDetector

open Models CodeArch

/-!
### `RelationshipDetector.detect_all_relationships` / `_detect_imports`
(`backend/app/services/relationship_detector.py`, lines 18-130)

The regex extraction helpers (`_extract_function_calls`,
`_extract_class_methods`, `_extract_parent_classes`, `_extract_imports`)
return Python sets of names; they are taken as parameters so the theorems
hold for every extraction outcome and iteration order.  The append-only
`self.db.add` loops are translated as list comprehensions (`bind` /
`filterMap`), preserving creation order.
-/

structure Extractors where
  extract_function_calls : String → List String
  extract_class_methods : String → List String
  extract_parent_classes : String → List String
  extract_imports : String → List String

/-- The dict comprehension `{entity.name: entity for entity in entities}`:
a later entity with the same name overwrites an earlier one. -/
def entityMapLookup (entities : List PyEntity) (n : String) : Option PyEntity :=
  entities.foldl (fun acc e => if e.name = n then some e else acc) none

/-- Embeds `if not entity.code_snippet: continue` — both a missing and an empty
snippet are falsy and skip the entity. -/
def snippetTruthy : Option String → Option String
  | none => none
  | some s => if s = "" then none else some s

/-- Python dict build `{file.path: file for file in files}` as an ordered
item list: first key occurrence fixes the position, a re-insert updates the
value in place. -/
def dictInsert (acc : List (String × PyFile)) (f : PyFile) : List (String × PyFile) :=
  if acc.any (fun p => p.1 = f.path) then
    acc.map (fun p => if p.1 = f.path then (p.1, f) else p)
  else acc ++ [(f.path, f)]

def fileMapItems (files : List PyFile) : List (String × PyFile) :=
  files.foldl dictInsert []

/-- Embeds `RelationshipDetector._detect_imports(repo_id)`: for every entity of
every repo file, each extracted import path is matched against the file map
and the first matching file (`break`) yields an `imports` relationship with
no target entity and file-path metadata. -/
def _detect_imports (ex : Extractors) (db : DB) (repo_id : Nat) : List PyRelationship :=
  let files := db.files.filter (fun f => f.repo_id = repo_id)
  let file_map := fileMapItems files
  files.flatMap (fun file =>
    (db.entities.filter (fun e => e.file_id = file.id)).flatMap (fun entity =>
      match snippetTruthy entity.code_snippet with
      | none => []
      | some code =>
        (ex.extract_imports code).filterMap (fun imported_path =>
          (file_map.find? (fun pf => _is_import_match imported_path pf.1)).map
            (fun pf =>
              ⟨entity.id, none, RelationshipType.imports,
                some ⟨file.path, pf.1, imported_path⟩⟩))))

/-- Embeds `RelationshipDetector.detect_all_relationships(repo_id)`: the list of
relationships added to the session, in creation order.  Targets for
`calls`/`contains`/`inherits` are resolved only through the
repository-scoped `entity_map`. -/
def detect_all_relationships (ex : Extractors) (db : DB) (repo_id : Nat) :
    List PyRelationship :=
  let entities := db.entities.filter (fun e => e.repo_id = repo_id)
  let lookup := entityMapLookup entities
  let entityRels := entities.flatMap (fun entity =>
    match snippetTruthy entity.code_snippet with
    | none => []
    | some code =>
      let callsRels := (ex.extract_function_calls code).filterMap
        (fun called_name =>
          (lookup called_name).bind (fun target =>
            if called_name ≠ entity.name then
              some ⟨entity.id, some target.id, RelationshipType.calls, none⟩
            else none))
      let containsRels :=
        if entity.type = EntityType.cls then
          (ex.extract_class_methods code).filterMap (fun method_name =>
            (lookup method_name).map (fun t =>
              ⟨entity.id, some t.id, RelationshipType.contains, none⟩))
        else []
      let inheritsRels :=
        if entity.type = EntityType.cls then
          (ex.extract_parent_classes code).filterMap (fun parent_name =>
            (lookup parent_name).map (fun t =>
              ⟨entity.id, some t.id, RelationshipType.inherits, none⟩))
        else []
      callsRels ++ containsRels ++ inheritsRels)
  entityRels ++ _detect_imports ex db repo_id

/-!
### `RelationshipDetector.get_call_graph`
(`backend/app/services/relationship_detector.py`, lines 257-308)

The `select(Relationship)` is filtered only by `relationship_type ==
CALLS`, and the entity `select` only by `id.in_(entity_ids)` — neither
mentions `repo_id`, which the function receives but never uses.
-/

structure GraphNode where
  id : Nat
  name : String
  type : String
  in_degree : Nat
  out_degree : Nat
deriving DecidableEq

structure GraphEdge where
  source : Nat
  target : Option Nat
  type : String
deriving DecidableEq

structure CallGraph where
  nodes : List GraphNode
  edges : List GraphEdge
deriving DecidableEq

/-- Embeds `RelationshipDetector.get_call_graph(repo_id)`. -/
def get_call_graph (db : DB) (_repo_id : Nat) : CallGraph :=
  let relationships :=
    db.relationships.filter (fun r => r.relationship_type = RelationshipType.calls)
  let entity_ids : List (Option Nat) :=
    relationships.flatMap (fun r => [some r.source_entity_id, r.target_entity_id])
  let entities := db.entities.filter (fun e => entity_ids.contains (some e.id))
  let nodes := entities.map (fun e =>
    { id := e.id
      name := e.name
      type := e.type.value
      in_degree := relationships.countP (fun r => r.target_entity_id = some e.id)
      out_degree := relationships.countP (fun r => r.source_entity_id = e.id) })
  let edges := relationships.map (fun r =>
    { source := r.source_entity_id, target := r.target_entity_id, type := "calls" })
  { nodes := nodes, edges := edges }

end RelationshipDetector

namespace AnalysisService

/-!
### `AnalysisService.analyze_repository`
(`backend/app/services/analysis_service.py`, lines 35-90)

The pipeline is modelled as a trace machine.  Each phase helper
(`_clone_and_scan`, `_parse_entities`, `_detect_relationships`,
`_generate_embeddings`) assigns only `repo.status_message` before its
commits — never `repo.status` — so a helper is abstracted as a number of
status-preserving commits followed by an outcome (normal return or a raised
exception).  `repo.status` is assigned exactly at lines 52 (`IN_PROGRESS`,
committed at line 54 before the `try`), 78 (`COMPLETED`, committed at line
80) and 84 (`FAILED`, committed at line 86 before the bare `raise`); the
`finally` block always runs `self.ingester.cleanup()`.
-/

inductive AnalysisStatus where
  | pending | in_progress | completed | failed
deriving DecidableEq

/-- Observable events: a storage commit making the current repository
status visible to a concurrent reader, or the execution of one phase. -/
inductive Event where
  | commit (s : AnalysisStatus)
  | phase (n : Nat)
deriving DecidableEq

/-- One phase helper: `commitsBefore` status-message commits (each leaving
`repo.status` unchanged), then either a normal return or an exception. -/
structure PhaseSpec where
  commitsBefore : Nat
  outcome : Except String Unit

/-- Outcomes of the four fallible phases inside the `try` block. -/
structure PipelineBehavior where
  scan : PhaseSpec
  parse : PhaseSpec
  relate : PhaseSpec
  embed : PhaseSpec

structure RunState where
  status : AnalysisStatus
  trace : List Event
deriving DecidableEq

def commitStatus (st : RunState) : RunState :=
  { st with trace := st.trace ++ [Event.commit st.status] }

def commitStatusMany : Nat → RunState → RunState
  | 0, st => st
  | k + 1, st => commitStatusMany k (commitStatus st)

/-- Run one phase: its status-message commits, its own phase event, then
its outcome. -/
def runPhase (n : Nat) (p : PhaseSpec) (st : RunState) :
    RunState × Except String Unit :=
  let st1 := commitStatusMany p.commitsBefore st
  ({ st1 with trace := st1.trace ++ [Event.phase n] }, p.outcome)

/-- Run the phases of the `try` block in order, stopping at the first
raised exception. -/
def runPhases : List (Nat × PhaseSpec) → RunState → RunState × Except String Unit
  | [], st => (st, Except.ok ())
  | (n, p) :: rest, st =>
    match runPhase n p st with
    | (st1, Except.ok ()) => runPhases rest st1
    | (st1, Except.error e) => (st1, Except.error e)

/-- The phase list of the `try` block (phase 3 is behind the
`ENABLE_RELATIONSHIP_DETECTION` feature flag). -/
def phaseList (enableRelate : Bool) (b : PipelineBehavior) : List (Nat × PhaseSpec) :=
  [(1, b.scan), (2, b.parse)] ++ (if enableRelate then [(3, b.relate)] else []) ++
    [(4, b.embed)]

/-- The first raised exception among a list of phases, if any. -/
def outcomeOfList : List (Nat × PhaseSpec) → Except String Unit
  | [] => Except.ok ()
  | (_, p) :: rest =>
    match p.outcome with
    | Except.error e => Except.error e
    | Except.ok () => outcomeOfList rest

/-- The exception escaping the `try` body, if any (first failing phase). -/
def pipelineOutcome (enableRelate : Bool) (b : PipelineBehavior) : Except String Unit :=
  outcomeOfList (phaseList enableRelate b)

structure RunResult where
  trace : List Event
  result : Except String Unit
  cleanedUp : Bool
  finalStatus : AnalysisStatus

/-- Embeds `AnalysisService.analyze_repository(repo_id)`.  `repoExists` is the
`self.db.get(Repository, repo_id)` lookup; when it fails a `ValueError`
is raised before the `try`/`finally`, so no cleanup runs and no status is
committed. -/
def analyze_repository (repoExists : Bool) (enableRelate : Bool)
    (b : PipelineBehavior) (initialStatus : AnalysisStatus) : RunResult :=
  if ¬repoExists then
    { trace := [], result := Except.error "Repository not found",
      cleanedUp := false, finalStatus := initialStatus }
  else
    let st0 : RunState := { status := initialStatus, trace := [] }
    let st1 := commitStatus { st0 with status := AnalysisStatus.in_progress }
    match runPhases (phaseList enableRelate b) st1 with
    | (st2, Except.ok ()) =>
      let st3 := commitStatus { st2 with status := AnalysisStatus.completed }
      { trace := st3.trace, result := Except.ok (), cleanedUp := true,
        finalStatus := AnalysisStatus.completed }
    | (st2, Except.error e) =>
      let st3 := commitStatus { st2 with status := AnalysisStatus.failed }
      { trace := st3.trace, result := Except.error e, cleanedUp := true,
        finalStatus := AnalysisStatus.failed }

/-- The statuses a concurrent status reader can observe, in commit order. -/
def committedStatuses (tr : List Event) : List AnalysisStatus :=
  tr.filterMap (fun e => match e with
    | Event.commit s => some s
    | Event.phase _ => none)

/-- Collapse consecutive repetitions (the distinct status sequence a
reader observes). -/
def collapseRuns {α : Type} [DecidableEq α] : List α → List α
  | [] => []
  | [a] => [a]
  | a :: b :: rest =>
    if a = b then collapseRuns (b :: rest) else a :: collapseRuns (b :: rest)

end AnalysisService

namespace RelationshipDetector

/-!
### `RelationshipDetector.detect_circular_dependencies`
(`backend/app/services/relationship_detector.py`, lines 346-385)

`get_dependency_matrix` produces a complete `|files| × |files|` matrix, so
every row of `dependency_matrix` has the full key list; the matrix is
passed in here as the key list `nodes` together with the count function
`adj`.  The recursive Python `dfs` mutates `visited`, `rec_stack`, `path`
and `cycles`; it is embedded with explicit state passing and a fuel that
the driver sets high enough (`nodes.length + 1`) never to run out, since
each nested call visits a previously unvisited node.
-/

structure DfsState where
  visited : List String
  recStack : List String
  path : List String
  cycles : List (List String)
deriving DecidableEq

/-- Python `set.add`. -/
def insertAbsent (l : List String) (x : String) : List String :=
  if x ∈ l then l else x :: l

/-- Python `list.index` (first occurrence; callers guarantee membership). -/
def idxOf : List String → String → Nat
  | [], _ => 0
  | y :: ys, x => if y = x then 0 else idxOf ys x + 1

/-- Embeds `cycle_start = path.index(neighbor); cycle = path[cycle_start:] +
[neighbor]; if cycle not in cycles: cycles.append(cycle)`. -/
def recordCycle (s : DfsState) (neighbor : String) : DfsState :=
  let cycle_start := idxOf s.path neighbor
  let cycle := s.path.drop cycle_start ++ [neighbor]
  if cycle ∈ s.cycles then s else { s with cycles := s.cycles ++ [cycle] }

/-- The body of `for neighbor, count in dependency_matrix[node].items()`. -/
def dfsStep (recur : String → DfsState → DfsState) (adj : String → String → Nat)
    (node : String) (acc : DfsState) (neighbor : String) : DfsState :=
  if adj node neighbor > 0 then
    if neighbor ∉ acc.visited then recur neighbor acc
    else if neighbor ∈ acc.recStack then recordCycle acc neighbor
    else acc
  else acc

/-- The recursive `dfs(node, path)` of `detect_circular_dependencies`. -/
def dfs (nodes : List String) (adj : String → String → Nat) :
    Nat → String → DfsState → DfsState
  | 0, _, s => s
  | fuel + 1, node, s =>
    let s1 : DfsState :=
      ⟨insertAbsent s.visited node, insertAbsent s.recStack node,
        s.path ++ [node], s.cycles⟩
    let s2 := nodes.foldl (dfsStep (dfs nodes adj fuel) adj node) s1
    ⟨s2.visited, s2.recStack.filter (· ≠ node), s2.path.dropLast, s2.cycles⟩

/-- Embeds `RelationshipDetector.detect_circular_dependencies`: every matrix key
serves as a DFS root unless already visited. -/
def detect_circular_dependencies (nodes : List String)
    (adj : String → String → Nat) : List (List String) :=
  (nodes.foldl
    (fun s root =>
      if root ∉ s.visited then dfs nodes adj (nodes.length + 1) root s else s)
    ⟨[], [], [], []⟩).cycles

end RelationshipDetector


namespace RelationshipDetector

/-! ### Proof-side notions for the cycle-detection DFS -/

/-- Number of matrix keys not yet visited (the DFS recursion measure;
each nested call visits a fresh key, so this bounds the fuel need). -/
def unvisited (nodes : List String) (visited : List String) : Nat :=
  (nodes.dedup.filter (fun y => y ∉ visited)).length

/-- The state invariant of the Python `dfs`: `rec_stack` holds exactly the
nodes of the current `path`, and every node on the path has been visited. -/
def dfsInv (s : DfsState) : Prop :=
  (∀ y, y ∈ s.recStack ↔ y ∈ s.path) ∧ (∀ y ∈ s.path, y ∈ s.visited)

/-- Some recorded cycle passes through both given nodes. -/
def goodPair (p q : String) (s : DfsState) : Prop :=
  ∃ c ∈ s.cycles, p ∈ c ∧ q ∈ c

end RelationshipDetector

namespace Models

/-- Concrete store holding `calls` relationships of two repositories
(entities 1, 2 in repository 1; entities 3, 4 in repository 2). -/
def twoRepoDB : DB :=
  { entities :=
      [⟨1, 1, 10, "f1", EntityType.function, some "f2()"⟩,
       ⟨2, 1, 10, "f2", EntityType.function, some "pass"⟩,
       ⟨3, 2, 20, "g1", EntityType.function, some "g2()"⟩,
       ⟨4, 2, 20, "g2", EntityType.function, some "pass"⟩]
    files := []
    relationships :=
      [⟨1, some 2, RelationshipType.calls, none⟩,
       ⟨3, some 4, RelationshipType.calls, none⟩] }

end Models

/-! ## Theorems -/

section ClaimProofs

open CodeArch Models

theorem parse_numbered_list_length (response : String) (n : Nat) :
    (LLMService._parse_numbered_list response n).length = n := by
  unfold LLMService._parse_numbered_list
  dsimp only
  split_ifs with h1 h2 h3
  · simpa using h1
  · simp only [List.length_map, List.length_take]
    omega
  · simp only [List.length_map, List.length_take]
    omega
  · simp only [List.length_map, List.length_append, List.length_replicate]
    omega

/-- C6: for every response string and expected count, the numbered-list
decoder returns exactly that many strings (it is a total function, so it
never raises); the three-item example decodes to the three texts, and a
two-item response decoded against expected count 3 pads the third element
with the fixed placeholder string. -/
theorem c6_numbered_list_decoder :
    (∀ (response : String) (n : Nat),
      (LLMService._parse_numbered_list response n).length = n) ∧
    LLMService._parse_numbered_list "[1] a\n[2] b\n[3] c" 3 = ["a", "b", "c"] ∧
    LLMService._parse_numbered_list "[1] a\n[2] b" 3 =
      ["a", "b", "Summary not available"] :=
  ⟨parse_numbered_list_length, by decide, by decide⟩

/-- C9: the structural extractor returns an empty entity list (and, being
total, raises no error) for every language outside the allow-list
`python`/`javascript`/`typescript`, for every content and every tree-sitter
configuration. -/
theorem c9_unsupported_language_empty :
    ∀ (tree_sitter_ok : Bool) (parsers : List String)
      (tsExtract : String → String → Option (List ASTParser.EntityDict))
      (content language : String),
      language ∉ ["python", "javascript", "typescript"] →
      ASTParser.parse_file tree_sitter_ok parsers tsExtract content language = [] := by
  intro ok ps ts content lang h
  simp [ASTParser.parse_file, h]

/-- Witness for C9 at the concrete language `ruby`. -/
theorem c9_unsupported_language_empty_witness :
    "ruby" ∉ ["python", "javascript", "typescript"] ∧
    ASTParser.parse_file true ["python", "javascript", "typescript"]
      (fun _ _ => none) "x = 1" "ruby" = [] :=
  ⟨by decide,
   c9_unsupported_language_empty true ["python", "javascript", "typescript"]
     (fun _ _ => none) "x = 1" "ruby" (by decide)⟩

/-- C8: `get_call_graph` never reads its `repo_id` argument — the `calls`
relationship query and the entity query are unscoped — so the graph is
identical for every requested repository; on a concrete store holding two
repositories, the graph returned for repository 1 contains the call edge
and entities of repository 2. -/
theorem c8_call_graph_ignores_repo :
    (∀ (db : Models.DB) (repo_id1 repo_id2 : Nat),
      RelationshipDetector.get_call_graph db repo_id1 =
        RelationshipDetector.get_call_graph db repo_id2) ∧
    (RelationshipDetector.get_call_graph twoRepoDB 1).edges =
      [⟨1, some 2, "calls"⟩, ⟨3, some 4, "calls"⟩] ∧
    (RelationshipDetector.get_call_graph twoRepoDB 1).nodes.map
      (fun node => node.id) = [1, 2, 3, 4] :=
  ⟨fun _ _ _ => rfl, by decide, by decide⟩

end ClaimProofs

section ClaimProofsImport

open CodeArch RelationshipDetector

/-- C2 counterexample: the claimed characterisation of `_is_import_match`
fails on concrete inputs.  A file nested two levels below the import path
(`utils` vs `utils/a/b.py`) is matched by the code although the claim says
it must not be; and a file whose `/index` suffix the claim collapses
(`models.index` vs `models/index.js`) is matched by the code through plain
equality while the normalization described by the claim rejects it. -/
theorem c2_import_match_counterexample :
    _is_import_match "utils" "utils/a/b.py" = true ∧
    claimImportMatch "utils" "utils/a/b.py" = false ∧
    _is_import_match "models.index" "models/index.js" = true ∧
    claimImportMatch "models.index" "models/index.js" = false :=
  ⟨by decide, by decide, by decide, by decide⟩

/-- C2 amended: `_is_import_match` returns true iff, after normalization
(dots to slashes and stripping of leading/trailing `./ ` characters on
the import path; backslash-to-slash, lowercasing, extension stripping and
collapsing of a trailing `/__init__` — but not `/index` — on the file
path), the normalized file path equals the normalized import path or is
nested at any depth of one or more levels under the import path treated as
a directory prefix.  The concrete examples from the specification hold. -/
theorem c2_import_match_amended :
    (∀ (import_path file_path : String),
      _is_import_match import_path file_path = true ↔
        (normalizeFileBase file_path = normalizeImportPath import_path ∨
         ∃ rest, normalizeFileBase file_path =
           normalizeImportPath import_path ++ '/' :: rest)) ∧
    _is_import_match "utils.helpers" "utils/helpers.py" = true ∧
    _is_import_match "utils" "helpers/utils.py" = false ∧
    _is_import_match "models" "models/__init__.py" = true ∧
    _is_import_match "utils" "utils/a/b.py" = true := by
  refine ⟨?_, by decide, by decide, by decide, by decide⟩
  intro ip fp
  unfold _is_import_match
  simp only [Bool.or_eq_true, beq_iff_eq, List.isPrefixOf_iff_prefix]
  constructor
  · rintro (h | ⟨t, ht⟩)
    · exact Or.inl h
    · exact Or.inr ⟨t, by simpa [List.append_assoc] using ht.symm⟩
  · rintro (h | ⟨t, ht⟩)
    · exact Or.inl h
    · exact Or.inr ⟨t, by simp [ht, List.append_assoc]⟩

/-- Witness for C2 (amended) applied at a concrete input pair. -/
theorem c2_import_match_amended_witness :
    _is_import_match "pkg.mod" "pkg/mod.py" = true :=
  (c2_import_match_amended.1 "pkg.mod" "pkg/mod.py").mpr (Or.inl (by decide))

end ClaimProofsImport

section ClaimProofsBatch

open LLMService

/-- C1: with the default group size 5 and any 7 explanation inputs, exactly
two groups are submitted (the first five inputs and the last two); when the
external call of the first group raises and the second succeeds with its two
outputs, the operation returns 7 strings — elements 0-4 the fixed
placeholder, elements 5-6 the real outputs of the second group in order —
so failure of the first group does not suppress results of the second group. -/
theorem c1_batched_explanations :
    ∀ (functions : List FuncInput)
      (call : List FuncInput → Except String (List String))
      (err y1 y2 : String),
      functions.length = 7 →
      call (functions.take 5) = Except.error err →
      call (functions.drop 5) = Except.ok [y1, y2] →
      chunks 5 functions = [functions.take 5, functions.drop 5] ∧
      (functions.take 5).length = 5 ∧ (functions.drop 5).length = 2 ∧
      explain_functions_batch call functions =
        List.replicate 5 explainPlaceholder ++ [y1, y2] := by
  intro fns call err y1 y2 hlen h1 h2
  rcases fns with _ | ⟨a1, fns⟩; · simp at hlen
  rcases fns with _ | ⟨a2, fns⟩; · simp at hlen
  rcases fns with _ | ⟨a3, fns⟩; · simp at hlen
  rcases fns with _ | ⟨a4, fns⟩; · simp at hlen
  rcases fns with _ | ⟨a5, fns⟩; · simp at hlen
  rcases fns with _ | ⟨a6, fns⟩; · simp at hlen
  rcases fns with _ | ⟨a7, fns⟩; · simp at hlen
  rcases fns with _ | ⟨a8, fns⟩
  · have h1' : call [a1, a2, a3, a4, a5] = Except.error err := h1
    have h2' : call [a6, a7] = Except.ok [y1, y2] := h2
    refine ⟨rfl, rfl, rfl, ?_⟩
    unfold explain_functions_batch
    dsimp only
    have e1 : chunks Settings.LLM_BATCH_SIZE [a1, a2, a3, a4, a5, a6, a7] =
        [[a1, a2, a3, a4, a5], [a6, a7]] := rfl
    rw [e1]
    simp only [List.map_cons, List.map_nil, h1', h2']
    rfl
  · simp at hlen

end ClaimProofsBatch

section ClaimProofsBatchWitness

open LLMService

/-- Witness for C1: seven concrete inputs, a call failing exactly on the
five-element group and succeeding on the two-element group. -/
theorem c1_batched_explanations_witness :
    explain_functions_batch
      (fun b => if b.length = 5 then Except.error "boom" else Except.ok ["e6", "e7"])
      [⟨"f1", "", "python"⟩, ⟨"f2", "", "python"⟩, ⟨"f3", "", "python"⟩,
       ⟨"f4", "", "python"⟩, ⟨"f5", "", "python"⟩, ⟨"f6", "", "python"⟩,
       ⟨"f7", "", "python"⟩] =
      List.replicate 5 explainPlaceholder ++ ["e6", "e7"] :=
  (c1_batched_explanations
    [⟨"f1", "", "python"⟩, ⟨"f2", "", "python"⟩, ⟨"f3", "", "python"⟩,
     ⟨"f4", "", "python"⟩, ⟨"f5", "", "python"⟩, ⟨"f6", "", "python"⟩,
     ⟨"f7", "", "python"⟩]
    (fun b => if b.length = 5 then Except.error "boom" else Except.ok ["e6", "e7"])
    "boom" "e6" "e7" rfl rfl rfl).2.2.2

end ClaimProofsBatchWitness

section ClaimProofsOrchestrator

open AnalysisService

theorem commitStatusMany_eq (k : Nat) (st : RunState) :
    commitStatusMany k st =
      ⟨st.status, st.trace ++ List.replicate k (Event.commit st.status)⟩ := by
  induction k generalizing st with
  | zero => simp [commitStatusMany]
  | succ k ih =>
    rw [commitStatusMany, ih]
    simp [commitStatus, List.replicate_succ]

theorem runPhases_snd (l : List (Nat × PhaseSpec)) (st : RunState) :
    (runPhases l st).2 = outcomeOfList l := by
  induction l generalizing st with
  | nil => rfl
  | cons hd tl ih =>
    obtain ⟨n, p⟩ := hd
    cases hp : p.outcome with
    | error e => simp [runPhases, runPhase, outcomeOfList, hp]
    | ok u => cases u; simp [runPhases, runPhase, outcomeOfList, hp, ih]

theorem runPhases_ok (l : List (Nat × PhaseSpec)) (st : RunState)
    (h : outcomeOfList l = Except.ok ()) :
    ∃ ext, runPhases l st = (⟨st.status, st.trace ++ ext⟩, Except.ok ()) ∧
      ∀ ev ∈ ext, ev = Event.commit st.status ∨ ∃ i, ev = Event.phase i := by
  induction l generalizing st with
  | nil =>
    refine ⟨[], ?_, by simp⟩
    simp [runPhases]
  | cons hd tl ih =>
    obtain ⟨n, p⟩ := hd
    cases hp : p.outcome with
    | error e => simp [outcomeOfList, hp] at h
    | ok u =>
      cases u
      have htl : outcomeOfList tl = Except.ok () := by
        simpa [outcomeOfList, hp] using h
      have hst1 : runPhase n p st =
          (⟨st.status, st.trace ++
            (List.replicate p.commitsBefore (Event.commit st.status) ++
              [Event.phase n])⟩, p.outcome) := by
        simp [runPhase, commitStatusMany_eq]
      obtain ⟨ext2, hrun, hext2⟩ :=
        ih (⟨st.status, st.trace ++
          (List.replicate p.commitsBefore (Event.commit st.status) ++
            [Event.phase n])⟩ : RunState) htl
      refine ⟨List.replicate p.commitsBefore (Event.commit st.status) ++
        [Event.phase n] ++ ext2, ?_, ?_⟩
      · rw [runPhases, hst1, hp]
        simpa [List.append_assoc] using hrun
      · intro ev hev
        rcases List.mem_append.1 hev with hev1 | hev2
        · rcases List.mem_append.1 hev1 with hev3 | hev4
          · exact Or.inl (List.eq_of_mem_replicate hev3)
          · exact Or.inr ⟨n, by simpa using hev4⟩
        · exact hext2 ev hev2

end ClaimProofsOrchestrator

section ClaimProofsOrchestrator2

open AnalysisService

theorem analyze_run_error_eq (enableRelate : Bool) (b : PipelineBehavior)
    (init : AnalysisStatus) (st2 : RunState) (e : String)
    (h : runPhases (phaseList enableRelate b)
      (commitStatus { status := AnalysisStatus.in_progress, trace := [] }) =
        (st2, Except.error e)) :
    analyze_repository true enableRelate b init =
      { trace := st2.trace ++ [Event.commit AnalysisStatus.failed],
        result := Except.error e, cleanedUp := true,
        finalStatus := AnalysisStatus.failed } := by
  unfold analyze_repository
  simp only [not_true, Bool.not_true, if_false, ite_false]
  rw [h]
  simp [commitStatus]

theorem analyze_run_ok_eq (enableRelate : Bool) (b : PipelineBehavior)
    (init : AnalysisStatus) (st2 : RunState)
    (h : runPhases (phaseList enableRelate b)
      (commitStatus { status := AnalysisStatus.in_progress, trace := [] }) =
        (st2, Except.ok ())) :
    analyze_repository true enableRelate b init =
      { trace := st2.trace ++ [Event.commit AnalysisStatus.completed],
        result := Except.ok (), cleanedUp := true,
        finalStatus := AnalysisStatus.completed } := by
  unfold analyze_repository
  simp only [not_true, Bool.not_true, if_false, ite_false]
  rw [h]
  simp [commitStatus]

/-- C3: when the repository exists and any phase of the pipeline raises,
`analyze_repository` commits `FAILED` as its last status commit, re-raises
the very same exception, and runs the ingester cleanup; the cleanup also
runs on the successful path. -/
theorem c3_failure_sets_failed_and_cleans_up :
    ∀ (enableRelate : Bool) (b : PipelineBehavior),
      (analyze_repository true enableRelate b AnalysisStatus.pending).cleanedUp = true ∧
      (∀ e, pipelineOutcome enableRelate b = Except.error e →
        (analyze_repository true enableRelate b AnalysisStatus.pending).result =
            Except.error e ∧
          (analyze_repository true enableRelate b AnalysisStatus.pending).finalStatus =
            AnalysisStatus.failed ∧
          (analyze_repository true enableRelate b
              AnalysisStatus.pending).trace.getLast? =
            some (Event.commit AnalysisStatus.failed)) ∧
      (pipelineOutcome enableRelate b = Except.ok () →
        (analyze_repository true enableRelate b AnalysisStatus.pending).result =
          Except.ok ()) := by
  intro enableRelate b
  rcases hr : runPhases (phaseList enableRelate b)
      (commitStatus { status := AnalysisStatus.in_progress, trace := [] }) with ⟨st2, r⟩
  have hsnd : r = outcomeOfList (phaseList enableRelate b) := by
    have h2 := runPhases_snd (phaseList enableRelate b)
      (commitStatus { status := AnalysisStatus.in_progress, trace := [] })
    rw [hr] at h2
    exact h2
  refine ⟨?_, ?_, ?_⟩
  · rcases r with e | u
    · rw [analyze_run_error_eq enableRelate b AnalysisStatus.pending st2 e hr]
    · cases u
      rw [analyze_run_ok_eq enableRelate b AnalysisStatus.pending st2 hr]
  · intro e he
    have hre : r = Except.error e := by rw [hsnd]; exact he
    subst hre
    rw [analyze_run_error_eq enableRelate b AnalysisStatus.pending st2 e hr]
    exact ⟨rfl, rfl, List.getLast?_concat _⟩
  · intro hok
    have hro : r = Except.ok () := by rw [hsnd]; exact hok
    subst hro
    rw [analyze_run_ok_eq enableRelate b AnalysisStatus.pending st2 hr]

/-- Witness for C3 with a concrete failing second phase. -/
theorem c3_failure_sets_failed_and_cleans_up_witness :
    (analyze_repository true true
      ⟨⟨2, Except.ok ()⟩, ⟨3, Except.error "parse blew up"⟩, ⟨2, Except.ok ()⟩,
        ⟨2, Except.ok ()⟩⟩ AnalysisStatus.pending).cleanedUp = true ∧
    (analyze_repository true true
      ⟨⟨2, Except.ok ()⟩, ⟨3, Except.error "parse blew up"⟩, ⟨2, Except.ok ()⟩,
        ⟨2, Except.ok ()⟩⟩ AnalysisStatus.pending).result =
      Except.error "parse blew up" ∧
    (analyze_repository true true
      ⟨⟨2, Except.ok ()⟩, ⟨3, Except.error "parse blew up"⟩, ⟨2, Except.ok ()⟩,
        ⟨2, Except.ok ()⟩⟩ AnalysisStatus.pending).trace.getLast? =
      some (Event.commit AnalysisStatus.failed) := by
  have h := c3_failure_sets_failed_and_cleans_up true
    ⟨⟨2, Except.ok ()⟩, ⟨3, Except.error "parse blew up"⟩, ⟨2, Except.ok ()⟩,
      ⟨2, Except.ok ()⟩⟩
  have h2 := h.2.1 "parse blew up" (by rfl)
  exact ⟨h.1, h2.1, h2.2.2⟩

theorem collapseRuns_in_progress_run (k : Nat) :
    collapseRuns (AnalysisStatus.in_progress ::
        (List.replicate k AnalysisStatus.in_progress ++ [AnalysisStatus.completed])) =
      [AnalysisStatus.in_progress, AnalysisStatus.completed] := by
  induction k with
  | zero => decide
  | succ k ih =>
    rw [List.replicate_succ]
    simpa [collapseRuns] using ih

/-- C4: a successful run from `PENDING` lets a concurrent reader observe
exactly the distinct status sequence `PENDING → IN_PROGRESS → COMPLETED`
(every intermediate commit carries `IN_PROGRESS`); the `IN_PROGRESS` commit
is the very first event — before any phase runs — and the `COMPLETED`
commit is the very last. -/
theorem c4_success_status_sequence :
    ∀ (enableRelate : Bool) (b : PipelineBehavior),
      pipelineOutcome enableRelate b = Except.ok () →
      collapseRuns (AnalysisStatus.pending ::
          committedStatuses
            (analyze_repository true enableRelate b AnalysisStatus.pending).trace) =
        [AnalysisStatus.pending, AnalysisStatus.in_progress,
          AnalysisStatus.completed] ∧
      (analyze_repository true enableRelate b AnalysisStatus.pending).trace.head? =
        some (Event.commit AnalysisStatus.in_progress) ∧
      (analyze_repository true enableRelate b AnalysisStatus.pending).trace.getLast? =
        some (Event.commit AnalysisStatus.completed) ∧
      (analyze_repository true enableRelate b AnalysisStatus.pending).result =
        Except.ok () ∧
      (analyze_repository true enableRelate b AnalysisStatus.pending).finalStatus =
        AnalysisStatus.completed := by
  intro enableRelate b hok
  obtain ⟨ext, hrun, hext⟩ := runPhases_ok (phaseList enableRelate b)
    (commitStatus { status := AnalysisStatus.in_progress, trace := [] }) hok
  rw [analyze_run_ok_eq enableRelate b AnalysisStatus.pending _ hrun]
  simp only [commitStatus] at hext ⊢
  refine ⟨?_, by simp, ?_, trivial, trivial⟩
  · have hcs : ∀ y ∈ committedStatuses ext, y = AnalysisStatus.in_progress := by
      intro y hy
      simp only [committedStatuses, List.mem_filterMap] at hy
      obtain ⟨ev, hev, hmatch⟩ := hy
      rcases hext ev hev with h1 | ⟨i, h2⟩
      · subst h1
        simpa using hmatch.symm
      · subst h2
        simp at hmatch
    have hrep : committedStatuses ext =
        List.replicate (committedStatuses ext).length AnalysisStatus.in_progress :=
      List.eq_replicate_of_mem hcs
    have hsplit : committedStatuses
        (([] ++ [Event.commit AnalysisStatus.in_progress]) ++ ext ++
          [Event.commit AnalysisStatus.completed]) =
        AnalysisStatus.in_progress ::
          (committedStatuses ext ++ [AnalysisStatus.completed]) := by
      simp [committedStatuses, List.filterMap_append]
    rw [hsplit, hrep]
    have hstep : ∀ (X : List AnalysisStatus),
        collapseRuns (AnalysisStatus.pending :: AnalysisStatus.in_progress :: X) =
          AnalysisStatus.pending ::
            collapseRuns (AnalysisStatus.in_progress :: X) := by
      intro X
      simp [collapseRuns]
    rw [hstep, collapseRuns_in_progress_run]
  · rw [show ([] ++ [Event.commit AnalysisStatus.in_progress]) ++ ext ++
        [Event.commit AnalysisStatus.completed] =
        (([] ++ [Event.commit AnalysisStatus.in_progress]) ++ ext) ++
          [Event.commit AnalysisStatus.completed] from by simp]
    exact List.getLast?_concat _

/-- Witness for C4 with concrete all-successful phases. -/
theorem c4_success_status_sequence_witness :
    collapseRuns (AnalysisStatus.pending ::
        committedStatuses
          (analyze_repository true true
            ⟨⟨3, Except.ok ()⟩, ⟨4, Except.ok ()⟩, ⟨1, Except.ok ()⟩,
              ⟨2, Except.ok ()⟩⟩ AnalysisStatus.pending).trace) =
      [AnalysisStatus.pending, AnalysisStatus.in_progress,
        AnalysisStatus.completed] :=
  (c4_success_status_sequence true
    ⟨⟨3, Except.ok ()⟩, ⟨4, Except.ok ()⟩, ⟨1, Except.ok ()⟩,
      ⟨2, Except.ok ()⟩⟩ (by rfl)).1

end ClaimProofsOrchestrator2

section ClaimProofsRepoScope

open Models RelationshipDetector

theorem entityMapLookup_aux (n : String) :
    ∀ (entities : List PyEntity) (acc : Option PyEntity) (e : PyEntity),
      entities.foldl (fun a ent => if ent.name = n then some ent else a) acc =
        some e →
      e ∈ entities ∨ acc = some e := by
  intro entities
  induction entities with
  | nil =>
    intro acc e h
    exact Or.inr h
  | cons hd tl ih =>
    intro acc e h
    rw [List.foldl_cons] at h
    rcases ih (if hd.name = n then some hd else acc) e h with h1 | h2
    · exact Or.inl (List.mem_cons_of_mem _ h1)
    · by_cases hn : hd.name = n
      · rw [if_pos hn] at h2
        cases h2
        exact Or.inl (List.mem_cons_self hd tl)
      · rw [if_neg hn] at h2
        exact Or.inr h2

theorem entityMapLookup_mem (entities : List PyEntity) (n : String) (e : PyEntity)
    (h : entityMapLookup entities n = some e) : e ∈ entities := by
  rcases entityMapLookup_aux n entities none e h with h1 | h2
  · exact h1
  · cases h2

theorem detect_imports_target_none (ex : Extractors) (db : DB) (repo_id : Nat)
    (rel : PyRelationship) (h : rel ∈ _detect_imports ex db repo_id) :
    rel.target_entity_id = none := by
  unfold _detect_imports at h
  rw [List.mem_flatMap] at h
  obtain ⟨file, _, h⟩ := h
  rw [List.mem_flatMap] at h
  obtain ⟨entity, _, h⟩ := h
  rcases hsnip : snippetTruthy entity.code_snippet with _ | code
  · rw [hsnip] at h
    cases h
  · rw [hsnip] at h
    rw [List.mem_filterMap] at h
    obtain ⟨ip, _, h⟩ := h
    rw [Option.map_eq_some'] at h
    obtain ⟨pf, _, h⟩ := h
    cases h
    rfl

/-- C7: every relationship created by `detect_all_relationships` whose
target is present resolves both its source and its target inside the
repository-scoped entity set — targets come only from the `entity_map`
built over the entities of the repository (import relationships carry no
target). -/
theorem c7_targets_repo_scoped :
    ∀ (ex : Extractors) (db : DB) (repo_id : Nat) (rel : PyRelationship),
      rel ∈ detect_all_relationships ex db repo_id →
      ∀ tid, rel.target_entity_id = some tid →
        (∃ s, s ∈ db.entities ∧ s.repo_id = repo_id ∧
          s.id = rel.source_entity_id) ∧
        (∃ t, t ∈ db.entities ∧ t.repo_id = repo_id ∧ t.id = tid) := by
  intro ex db repo_id rel hmem tid htid
  unfold detect_all_relationships at hmem
  rcases List.mem_append.1 hmem with hent | himp
  swap
  · rw [detect_imports_target_none ex db repo_id rel himp] at htid
    cases htid
  rw [List.mem_flatMap] at hent
  obtain ⟨entity, hentmem, hrelmem⟩ := hent
  rw [List.mem_filter] at hentmem
  obtain ⟨hentdb, hentrepo⟩ := hentmem
  have hentrepo' : entity.repo_id = repo_id := by
    simpa using hentrepo
  rcases hsnip : snippetTruthy entity.code_snippet with _ | code
  · rw [hsnip] at hrelmem
    cases hrelmem
  rw [hsnip] at hrelmem
  have hmain : ∃ target, target ∈ db.entities.filter
      (fun e => e.repo_id = repo_id) ∧
      rel.source_entity_id = entity.id ∧ rel.target_entity_id = some target.id := by
    rcases List.mem_append.1 hrelmem with h1 | h2
    · rcases List.mem_append.1 h1 with hc | hco
      · rw [List.mem_filterMap] at hc
        obtain ⟨called_name, _, hf⟩ := hc
        rw [Option.bind_eq_some] at hf
        obtain ⟨target, hlk, hf⟩ := hf
        by_cases hne : called_name ≠ entity.name
        · rw [if_pos hne] at hf
          cases hf
          exact ⟨target, entityMapLookup_mem _ _ _ hlk, rfl, rfl⟩
        · rw [if_neg hne] at hf
          cases hf
      · by_cases hcls : entity.type = EntityType.cls
        · rw [if_pos hcls] at hco
          rw [List.mem_filterMap] at hco
          obtain ⟨method_name, _, hf⟩ := hco
          rw [Option.map_eq_some'] at hf
          obtain ⟨target, hlk, hf⟩ := hf
          cases hf
          exact ⟨target, entityMapLookup_mem _ _ _ hlk, rfl, rfl⟩
        · rw [if_neg hcls] at hco
          cases hco
    · by_cases hcls : entity.type = EntityType.cls
      · rw [if_pos hcls] at h2
        rw [List.mem_filterMap] at h2
        obtain ⟨parent_name, _, hf⟩ := h2
        rw [Option.map_eq_some'] at hf
        obtain ⟨target, hlk, hf⟩ := hf
        cases hf
        exact ⟨target, entityMapLookup_mem _ _ _ hlk, rfl, rfl⟩
      · rw [if_neg hcls] at h2
        cases h2
  obtain ⟨target, htmem, hsrc, htgt⟩ := hmain
  rw [List.mem_filter] at htmem
  obtain ⟨htdb, htrepo⟩ := htmem
  have htrepo' : target.repo_id = repo_id := by simpa using htrepo
  rw [htgt] at htid
  cases htid
  exact ⟨⟨entity, hentdb, hentrepo', hsrc.symm⟩, ⟨target, htdb, htrepo', rfl⟩⟩

/-- Witness for C7 on a concrete two-entity repository where a single
`calls` relationship is produced. -/
theorem c7_targets_repo_scoped_witness :
    (⟨1, some 2, RelationshipType.calls, none⟩ : PyRelationship) ∈
      detect_all_relationships
        ⟨fun _ => ["g"], fun _ => [], fun _ => [], fun _ => []⟩
        ⟨[⟨1, 10, 100, "f", EntityType.function, some "g()"⟩,
          ⟨2, 10, 100, "g", EntityType.function, some "x = 1"⟩], [], []⟩ 10 ∧
    ((∃ s, s ∈ ([⟨1, 10, 100, "f", EntityType.function, some "g()"⟩,
          ⟨2, 10, 100, "g", EntityType.function, some "x = 1"⟩] :
            List PyEntity) ∧ s.repo_id = 10 ∧ s.id = 1) ∧
     (∃ t, t ∈ ([⟨1, 10, 100, "f", EntityType.function, some "g()"⟩,
          ⟨2, 10, 100, "g", EntityType.function, some "x = 1"⟩] :
            List PyEntity) ∧ t.repo_id = 10 ∧ t.id = 2)) := by
  constructor
  · decide
  · exact c7_targets_repo_scoped
      ⟨fun _ => ["g"], fun _ => [], fun _ => [], fun _ => []⟩
      ⟨[⟨1, 10, 100, "f", EntityType.function, some "g()"⟩,
        ⟨2, 10, 100, "g", EntityType.function, some "x = 1"⟩], [], []⟩ 10
      ⟨1, some 2, RelationshipType.calls, none⟩ (by decide) 2 rfl

end ClaimProofsRepoScope

section ClaimProofsCyclesZero

open RelationshipDetector

theorem foldl_dfsStep_zero (recur : String → DfsState → DfsState)
    (adj : String → String → Nat) (node : String) (l : List String)
    (h : ∀ neighbor ∈ l, adj node neighbor = 0) :
    ∀ acc : DfsState, l.foldl (dfsStep recur adj node) acc = acc := by
  induction l with
  | nil => intro acc; rfl
  | cons hd tl ih =>
    intro acc
    rw [List.foldl_cons]
    have hstep : dfsStep recur adj node acc hd = acc := by
      unfold dfsStep
      rw [h hd (List.mem_cons_self hd tl)]
      simp
    rw [hstep]
    exact ih (fun y hy => h y (List.mem_cons_of_mem _ hy)) acc

theorem dfs_cycles_zero (nodes : List String) (adj : String → String → Nat)
    (hz : ∀ a ∈ nodes, ∀ b ∈ nodes, adj a b = 0) (fuel : Nat) (x : String)
    (hx : x ∈ nodes) (s : DfsState) :
    (dfs nodes adj fuel x s).cycles = s.cycles ∧
    (dfs nodes adj fuel x s).visited = insertAbsent s.visited x ∨
    dfs nodes adj fuel x s = s := by
  cases fuel with
  | zero => exact Or.inr rfl
  | succ f =>
    left
    show ((dfs nodes adj (f + 1) x s).cycles = s.cycles ∧ _)
    rw [dfs]
    rw [foldl_dfsStep_zero (dfs nodes adj f) adj x nodes
      (fun y hy => hz x hx y hy)]
    exact ⟨rfl, rfl⟩

/-- C10: over a dependency matrix with only zero entries, the
cycle-detection DFS records no cycle at all. -/
theorem c10_zero_matrix_no_cycles :
    ∀ (nodes : List String) (adj : String → String → Nat),
      (∀ a ∈ nodes, ∀ b ∈ nodes, adj a b = 0) →
      detect_circular_dependencies nodes adj = [] := by
  intro nodes adj hz
  unfold detect_circular_dependencies
  suffices H : ∀ (l : List String), (∀ y ∈ l, y ∈ nodes) → ∀ (s : DfsState),
      (l.foldl (fun s root =>
        if root ∉ s.visited then dfs nodes adj (nodes.length + 1) root s else s)
        s).cycles = s.cycles by
    rw [H nodes (fun y hy => hy) ⟨[], [], [], []⟩]
  intro l
  induction l with
  | nil =>
    intro _ s
    rfl
  | cons hd tl ih =>
    intro hl s
    rw [List.foldl_cons]
    have htl := ih (fun y hy => hl y (List.mem_cons_of_mem _ hy))
    by_cases hv : hd ∉ s.visited
    · rw [if_pos hv, htl]
      rcases dfs_cycles_zero nodes adj hz (nodes.length + 1) hd
          (hl hd (List.mem_cons_self hd tl)) s with ⟨hc, _⟩ | hs
      · exact hc
      · rw [hs]
    · rw [if_neg hv]
      exact htl s

/-- Witness for C10 on a concrete two-node all-zero matrix. -/
theorem c10_zero_matrix_no_cycles_witness :
    detect_circular_dependencies ["a", "b"] (fun _ _ => 0) = [] :=
  c10_zero_matrix_no_cycles ["a", "b"] (fun _ _ => 0)
    (fun _ _ _ _ => rfl)

end ClaimProofsCyclesZero

section ClaimProofsCycleCore

open RelationshipDetector

theorem foldl_rel {α β : Type} (P : α → α → Prop) (f : α → β → α)
    (hrefl : ∀ a, P a a) (htrans : ∀ a b c, P a b → P b c → P a c) :
    ∀ (l : List β) (acc : α), (∀ a b, b ∈ l → P a (f a b)) →
      P acc (l.foldl f acc) := by
  intro l
  induction l with
  | nil =>
    intro acc _
    exact hrefl acc
  | cons hd tl ih =>
    intro acc h
    rw [List.foldl_cons]
    exact htrans _ _ _ (h acc hd (List.mem_cons_self hd tl))
      (ih (f acc hd) (fun a b hb => h a b (List.mem_cons_of_mem _ hb)))

theorem insertAbsent_self_mem (l : List String) (x : String) :
    x ∈ insertAbsent l x := by
  unfold insertAbsent
  split_ifs with h
  · exact h
  · exact List.mem_cons_self x l

theorem insertAbsent_mem_of_mem (l : List String) (x y : String) (h : y ∈ l) :
    y ∈ insertAbsent l x := by
  unfold insertAbsent
  split_ifs with hx
  · exact h
  · exact List.mem_cons_of_mem x h

theorem insertAbsent_eq_cons (l : List String) (x : String) (h : x ∉ l) :
    insertAbsent l x = x :: l := by
  unfold insertAbsent
  rw [if_neg h]

theorem recordCycle_fields (s : DfsState) (n : String) :
    (recordCycle s n).visited = s.visited ∧
    (recordCycle s n).recStack = s.recStack ∧
    (recordCycle s n).path = s.path := by
  unfold recordCycle
  dsimp only
  split_ifs <;> exact ⟨rfl, rfl, rfl⟩

theorem recordCycle_cycles (s : DfsState) (n : String) :
    ∃ ext, (recordCycle s n).cycles = s.cycles ++ ext := by
  unfold recordCycle
  dsimp only
  split_ifs with h
  · exact ⟨[], by simp⟩
  · exact ⟨_, rfl⟩

theorem idxOf_append_of_mem (a : String) (l l' : List String) (h : a ∈ l) :
    idxOf (l ++ l') a = idxOf l a := by
  induction l with
  | nil => cases h
  | cons hd tl ih =>
    by_cases he : hd = a
    · simp [idxOf, he]
    · rcases List.mem_cons.1 h with h1 | h2
      · exact absurd h1.symm he
      · simp [idxOf, he, ih h2]

theorem idxOf_lt_length (a : String) (l : List String) (h : a ∈ l) :
    idxOf l a < l.length := by
  induction l with
  | nil => cases h
  | cons hd tl ih =>
    by_cases he : hd = a
    · simp [idxOf, he]
    · rcases List.mem_cons.1 h with h1 | h2
      · exact absurd h1.symm he
      · simp only [idxOf, if_neg he, List.length_cons]
        exact Nat.succ_lt_succ (ih h2)

theorem drop_idxOf_cons (a : String) (l : List String) (h : a ∈ l) :
    ∃ t, l.drop (idxOf l a) = a :: t := by
  induction l with
  | nil => cases h
  | cons hd tl ih =>
    by_cases he : hd = a
    · exact ⟨tl, by simp [idxOf, he]⟩
    · rcases List.mem_cons.1 h with h1 | h2
      · exact absurd h1.symm he
      · obtain ⟨t, ht⟩ := ih h2
        exact ⟨t, by simpa [idxOf, he] using ht⟩

theorem length_filter_mono (p q : String → Bool) (l : List String)
    (h : ∀ a ∈ l, p a = true → q a = true) :
    (l.filter p).length ≤ (l.filter q).length := by
  induction l with
  | nil => exact Nat.le_refl 0
  | cons hd tl ih =>
    have htl := ih (fun a ha => h a (List.mem_cons_of_mem _ ha))
    by_cases hp : p hd = true
    · rw [List.filter_cons_of_pos hp,
        List.filter_cons_of_pos (h hd (List.mem_cons_self hd tl) hp)]
      simpa using htl
    · rw [List.filter_cons_of_neg (by simpa using hp)]
      by_cases hq : q hd = true
      · rw [List.filter_cons_of_pos hq]
        exact Nat.le_succ_of_le htl
      · rw [List.filter_cons_of_neg (by simpa using hq)]
        exact htl

theorem length_filter_lt (p q : String → Bool) (l : List String)
    (h : ∀ a ∈ l, p a = true → q a = true) (x : String) (hx : x ∈ l)
    (hq : q x = true) (hp : p x = false) :
    (l.filter p).length < (l.filter q).length := by
  induction l with
  | nil => cases hx
  | cons hd tl ih =>
    have hmono := length_filter_mono p q tl
      (fun a ha => h a (List.mem_cons_of_mem _ ha))
    rcases List.mem_cons.1 hx with h1 | h2
    · subst h1
      rw [List.filter_cons_of_neg (by simp [hp]), List.filter_cons_of_pos hq]
      simpa [Nat.lt_succ_iff] using hmono
    · have htl := ih (fun a ha => h a (List.mem_cons_of_mem _ ha)) h2
      by_cases hphd : p hd = true
      · rw [List.filter_cons_of_pos hphd,
          List.filter_cons_of_pos (h hd (List.mem_cons_self hd tl) hphd)]
        simpa using htl
      · rw [List.filter_cons_of_neg (by simpa using hphd)]
        by_cases hqhd : q hd = true
        · rw [List.filter_cons_of_pos hqhd]
          exact Nat.lt_succ_of_lt htl
        · rw [List.filter_cons_of_neg (by simpa using hqhd)]
          exact htl

end ClaimProofsCycleCore

section ClaimProofsCycleDfs

open RelationshipDetector

variable (nodes : List String) (adj : String → String → Nat)

theorem dfsStep_eq (recur : String → DfsState → DfsState) (x hd : String)
    (acc : DfsState) :
    (adj x hd > 0 ∧ hd ∉ acc.visited ∧
      dfsStep recur adj x acc hd = recur hd acc) ∨
    (adj x hd > 0 ∧ hd ∈ acc.visited ∧ hd ∈ acc.recStack ∧
      dfsStep recur adj x acc hd = recordCycle acc hd) ∨
    ((¬(adj x hd > 0) ∨ (hd ∈ acc.visited ∧ hd ∉ acc.recStack)) ∧
      dfsStep recur adj x acc hd = acc) := by
  by_cases h1 : adj x hd > 0
  · by_cases h2 : hd ∉ acc.visited
    · exact Or.inl ⟨h1, h2, by simp only [dfsStep, if_pos h1, if_pos h2]⟩
    · rw [not_not] at h2
      by_cases h3 : hd ∈ acc.recStack
      · refine Or.inr (Or.inl ⟨h1, h2, h3, ?_⟩)
        simp only [dfsStep, if_pos h1, if_neg (not_not_intro h2), if_pos h3]
      · refine Or.inr (Or.inr ⟨Or.inr ⟨h2, h3⟩, ?_⟩)
        simp only [dfsStep, if_pos h1, if_neg (not_not_intro h2), if_neg h3]
  · exact Or.inr (Or.inr ⟨Or.inl h1, by simp only [dfsStep, if_neg h1]⟩)

theorem dfs_cycles_mono : ∀ (fuel : Nat) (x : String) (s : DfsState),
    ∃ ext, (dfs nodes adj fuel x s).cycles = s.cycles ++ ext := by
  intro fuel
  induction fuel with
  | zero =>
    intro x s
    exact ⟨[], by simp [dfs]⟩
  | succ f ih =>
    intro x s
    rw [dfs]
    dsimp only
    have hfold : ∀ (l : List String) (acc : DfsState),
        ∃ ext, (l.foldl (dfsStep (dfs nodes adj f) adj x) acc).cycles =
          acc.cycles ++ ext := by
      intro l
      induction l with
      | nil =>
        intro acc
        exact ⟨[], by simp⟩
      | cons hd tl ihl =>
        intro acc
        rw [List.foldl_cons]
        have hstep : ∃ ext1,
            (dfsStep (dfs nodes adj f) adj x acc hd).cycles =
              acc.cycles ++ ext1 := by
          rcases dfsStep_eq adj (dfs nodes adj f) x hd acc with
            ⟨_, _, heq⟩ | ⟨_, _, _, heq⟩ | ⟨_, heq⟩
          · rw [heq]
            exact ih hd acc
          · rw [heq]
            exact recordCycle_cycles acc hd
          · rw [heq]
            exact ⟨[], by simp⟩
        obtain ⟨ext1, h1⟩ := hstep
        obtain ⟨ext2, h2⟩ := ihl (dfsStep (dfs nodes adj f) adj x acc hd)
        exact ⟨ext1 ++ ext2, by rw [h2, h1, List.append_assoc]⟩
    obtain ⟨ext, hext⟩ := hfold nodes
      ⟨insertAbsent s.visited x, insertAbsent s.recStack x, s.path ++ [x], s.cycles⟩
    exact ⟨ext, hext⟩

theorem goodPair_mono (p q : String) (fuel : Nat) (x : String) (s : DfsState)
    (h : goodPair p q s) : goodPair p q (dfs nodes adj fuel x s) := by
  obtain ⟨c, hc, hpc, hqc⟩ := h
  obtain ⟨ext, hext⟩ := dfs_cycles_mono nodes adj fuel x s
  exact ⟨c, by rw [hext]; exact List.mem_append_left _ hc, hpc, hqc⟩

theorem dfs_visited_mono : ∀ (fuel : Nat) (x : String) (s : DfsState)
    (y : String), y ∈ s.visited → y ∈ (dfs nodes adj fuel x s).visited := by
  intro fuel
  induction fuel with
  | zero =>
    intro x s y hy
    simpa [dfs] using hy
  | succ f ih =>
    intro x s y hy
    rw [dfs]
    dsimp only
    have hfold : ∀ (l : List String) (acc : DfsState),
        y ∈ acc.visited →
        y ∈ (l.foldl (dfsStep (dfs nodes adj f) adj x) acc).visited := by
      intro l
      induction l with
      | nil =>
        intro acc h
        exact h
      | cons hd tl ihl =>
        intro acc h
        rw [List.foldl_cons]
        refine ihl (dfsStep (dfs nodes adj f) adj x acc hd) ?_
        rcases dfsStep_eq adj (dfs nodes adj f) x hd acc with
          ⟨_, _, heq⟩ | ⟨_, _, _, heq⟩ | ⟨_, heq⟩
        · rw [heq]
          exact ih hd acc y h
        · rw [heq, (recordCycle_fields acc hd).1]
          exact h
        · rw [heq]
          exact h
    exact hfold nodes _ (insertAbsent_mem_of_mem s.visited x y hy)

theorem dfs_visits_self (f : Nat) (x : String) (s : DfsState) :
    x ∈ (dfs nodes adj (f + 1) x s).visited := by
  rw [dfs]
  dsimp only
  have hfold : ∀ (l : List String) (acc : DfsState),
      x ∈ acc.visited →
      x ∈ (l.foldl (dfsStep (dfs nodes adj f) adj x) acc).visited := by
    intro l
    induction l with
    | nil =>
      intro acc h
      exact h
    | cons hd tl ihl =>
      intro acc h
      rw [List.foldl_cons]
      refine ihl (dfsStep (dfs nodes adj f) adj x acc hd) ?_
      rcases dfsStep_eq adj (dfs nodes adj f) x hd acc with
        ⟨_, _, heq⟩ | ⟨_, _, _, heq⟩ | ⟨_, heq⟩
      · rw [heq]
        exact dfs_visited_mono nodes adj f hd acc x h
      · rw [heq, (recordCycle_fields acc hd).1]
        exact h
      · rw [heq]
        exact h
  exact hfold nodes _ (insertAbsent_self_mem s.visited x)

end ClaimProofsCycleDfs

section ClaimProofsCycleRestore

open RelationshipDetector

variable (nodes : List String) (adj : String → String → Nat)

theorem dfsInv_congr (s t : DfsState) (hv : t.visited = s.visited)
    (hr : t.recStack = s.recStack) (hp : t.path = s.path) (h : dfsInv s) :
    dfsInv t := by
  unfold dfsInv at h ⊢
  rw [hv, hr, hp]
  exact h

theorem foldl_dfsStep_visited_mono (f : Nat) (x : String) :
    ∀ (l : List String) (acc : DfsState) (y : String), y ∈ acc.visited →
      y ∈ (l.foldl (dfsStep (dfs nodes adj f) adj x) acc).visited := by
  intro l
  induction l with
  | nil =>
    intro acc y h
    exact h
  | cons hd tl ihl =>
    intro acc y h
    rw [List.foldl_cons]
    refine ihl (dfsStep (dfs nodes adj f) adj x acc hd) y ?_
    rcases dfsStep_eq adj (dfs nodes adj f) x hd acc with
      ⟨_, _, heq⟩ | ⟨_, _, _, heq⟩ | ⟨_, heq⟩
    · rw [heq]
      exact dfs_visited_mono nodes adj f hd acc y h
    · rw [heq, (recordCycle_fields acc hd).1]
      exact h
    · rw [heq]
      exact h

theorem dfs_restore : ∀ (fuel : Nat) (x : String) (s : DfsState),
    x ∉ s.visited → dfsInv s →
    (dfs nodes adj fuel x s).path = s.path ∧
    (dfs nodes adj fuel x s).recStack = s.recStack ∧
    dfsInv (dfs nodes adj fuel x s) := by
  intro fuel
  induction fuel with
  | zero =>
    intro x s _ hinv
    exact ⟨rfl, rfl, hinv⟩
  | succ f ih =>
    intro x s hx hinv
    rw [dfs]
    dsimp only
    have hxrec : x ∉ s.recStack := fun hmem => hx (hinv.2 x ((hinv.1 x).1 hmem))
    have hs1inv : dfsInv ⟨insertAbsent s.visited x, insertAbsent s.recStack x,
        s.path ++ [x], s.cycles⟩ := by
      constructor
      · intro y
        rw [insertAbsent_eq_cons s.recStack x hxrec]
        simp only [List.mem_cons, List.mem_append, List.mem_singleton]
        rw [hinv.1 y]
        tauto
      · intro y hy
        rcases List.mem_append.1 hy with h1 | h2
        · exact insertAbsent_mem_of_mem s.visited x y (hinv.2 y h1)
        · rw [List.mem_singleton] at h2
          subst h2
          exact insertAbsent_self_mem s.visited y
    have hfold : ∀ (l : List String) (acc : DfsState),
        acc.path = s.path ++ [x] → acc.recStack = x :: s.recStack → dfsInv acc →
        (l.foldl (dfsStep (dfs nodes adj f) adj x) acc).path = s.path ++ [x] ∧
        (l.foldl (dfsStep (dfs nodes adj f) adj x) acc).recStack =
          x :: s.recStack ∧
        dfsInv (l.foldl (dfsStep (dfs nodes adj f) adj x) acc) := by
      intro l
      induction l with
      | nil =>
        intro acc hp hr hi
        exact ⟨hp, hr, hi⟩
      | cons hd tl ihl =>
        intro acc hp hr hi
        rw [List.foldl_cons]
        rcases dfsStep_eq adj (dfs nodes adj f) x hd acc with
          ⟨_, hnv, heq⟩ | ⟨_, _, _, heq⟩ | ⟨_, heq⟩
        · obtain ⟨hp2, hr2, hi2⟩ := ih hd acc hnv hi
          exact ihl (dfsStep (dfs nodes adj f) adj x acc hd)
            (by rw [heq, hp2, hp]) (by rw [heq, hr2, hr]) (by rw [heq]; exact hi2)
        · obtain ⟨hv3, hr3, hp3⟩ := recordCycle_fields acc hd
          exact ihl (dfsStep (dfs nodes adj f) adj x acc hd)
            (by rw [heq, hp3, hp]) (by rw [heq, hr3, hr])
            (by rw [heq]; exact dfsInv_congr acc _ hv3 hr3 hp3 hi)
        · exact ihl (dfsStep (dfs nodes adj f) adj x acc hd)
            (by rw [heq, hp]) (by rw [heq, hr]) (by rw [heq]; exact hi)
    obtain ⟨hp2, hr2, hi2⟩ := hfold nodes
      ⟨insertAbsent s.visited x, insertAbsent s.recStack x, s.path ++ [x], s.cycles⟩
      rfl (by dsimp only; exact insertAbsent_eq_cons s.recStack x hxrec) hs1inv
    have hfilter : (x :: s.recStack).filter (fun y => y ≠ x) = s.recStack := by
      rw [List.filter_cons]
      rw [if_neg (by simp : ¬(decide (x ≠ x) = true))]
      apply List.filter_eq_self.mpr
      intro y hy
      simp only [decide_eq_true_eq]
      exact fun hyx => hxrec (hyx ▸ hy)
    refine ⟨?_, ?_, ?_⟩
    · dsimp only
      rw [hp2]
      exact List.dropLast_concat
    · dsimp only
      rw [hr2]
      exact hfilter
    · constructor
      · intro y
        dsimp only
        rw [hr2, hfilter, hp2, List.dropLast_concat]
        exact hinv.1 y
      · intro y hy
        dsimp only at hy ⊢
        rw [hp2, List.dropLast_concat] at hy
        exact foldl_dfsStep_visited_mono nodes adj f x nodes _ y
          (insertAbsent_mem_of_mem s.visited x y (hinv.2 y hy))

end ClaimProofsCycleRestore

section ClaimProofsCycleCount

open RelationshipDetector

variable (nodes : List String)

theorem unvisited_mono (v1 v2 : List String) (h : ∀ y ∈ v1, y ∈ v2) :
    unvisited nodes v2 ≤ unvisited nodes v1 := by
  unfold unvisited
  apply length_filter_mono
  intro a _ ha
  simp only [decide_eq_true_eq] at ha ⊢
  intro hmem
  exact ha (h a hmem)

theorem unvisited_insert_lt (x : String) (v : List String) (hx : x ∈ nodes)
    (hxv : x ∉ v) :
    unvisited nodes (insertAbsent v x) < unvisited nodes v := by
  rw [insertAbsent_eq_cons v x hxv]
  unfold unvisited
  apply length_filter_lt _ _ _ _ x (List.mem_dedup.2 hx)
  · simpa using hxv
  · simp
  · intro a _ ha
    simp only [decide_eq_true_eq, List.mem_cons] at ha ⊢
    intro hmem
    exact ha (Or.inr hmem)

theorem unvisited_pos (x : String) (v : List String) (hx : x ∈ nodes)
    (hxv : x ∉ v) : 0 < unvisited nodes v := by
  unfold unvisited
  apply List.length_pos.2
  intro hnil
  have hmem : x ∈ nodes.dedup.filter (fun y => y ∉ v) :=
    List.mem_filter.2 ⟨List.mem_dedup.2 hx, by simpa using hxv⟩
  rw [hnil] at hmem
  cases hmem

theorem unvisited_le_len (v : List String) :
    unvisited nodes v ≤ nodes.length :=
  Nat.le_trans (List.length_filter_le _ _)
    (List.Sublist.length_le (List.dedup_sublist nodes))

end ClaimProofsCycleCount

section ClaimProofsCyclePairA

open RelationshipDetector

variable (nodes : List String) (adj : String → String → Nat)

theorem not_mem_recStack_of_unvisited (x : String) (s : DfsState)
    (hx : x ∉ s.visited) (hinv : dfsInv s) : x ∉ s.recStack :=
  fun hmem => hx (hinv.2 x ((hinv.1 x).1 hmem))

theorem dfsInv_push (x : String) (s : DfsState) (hx : x ∉ s.visited)
    (hinv : dfsInv s) :
    dfsInv ⟨insertAbsent s.visited x, insertAbsent s.recStack x,
      s.path ++ [x], s.cycles⟩ := by
  have hxrec := not_mem_recStack_of_unvisited x s hx hinv
  constructor
  · intro y
    rw [insertAbsent_eq_cons s.recStack x hxrec]
    simp only [List.mem_cons, List.mem_append, List.mem_singleton]
    rw [hinv.1 y]
    tauto
  · intro y hy
    rcases List.mem_append.1 hy with h1 | h2
    · exact insertAbsent_mem_of_mem s.visited x y (hinv.2 y h1)
    · rw [List.mem_singleton] at h2
      subst h2
      exact insertAbsent_self_mem s.visited y

theorem recordCycle_good (acc : DfsState) (n p q : String)
    (hp : p ∈ acc.path.drop (idxOf acc.path n) ++ [n])
    (hq : q ∈ acc.path.drop (idxOf acc.path n) ++ [n]) :
    goodPair p q (recordCycle acc n) := by
  unfold recordCycle
  dsimp only
  split_ifs with h
  · exact ⟨_, h, hp, hq⟩
  · exact ⟨_, List.mem_append_right _ (List.mem_singleton.2 rfl), hp, hq⟩

theorem recordCycle_goodPair_mono (acc : DfsState) (n p q : String)
    (h : goodPair p q acc) : goodPair p q (recordCycle acc n) := by
  obtain ⟨c, hc, hpc, hqc⟩ := h
  obtain ⟨ext, hext⟩ := recordCycle_cycles acc n
  exact ⟨c, by rw [hext]; exact List.mem_append_left _ hc, hpc, hqc⟩

theorem foldl_dfsStep_goodPair_mono (f : Nat) (x p q : String) :
    ∀ (l : List String) (acc : DfsState), goodPair p q acc →
      goodPair p q (l.foldl (dfsStep (dfs nodes adj f) adj x) acc) := by
  intro l
  induction l with
  | nil =>
    intro acc h
    exact h
  | cons hd tl ihl =>
    intro acc h
    rw [List.foldl_cons]
    refine ihl (dfsStep (dfs nodes adj f) adj x acc hd) ?_
    rcases dfsStep_eq adj (dfs nodes adj f) x hd acc with
      ⟨_, _, heq⟩ | ⟨_, _, _, heq⟩ | ⟨_, heq⟩
    · rw [heq]
      exact goodPair_mono nodes adj p q f hd acc h
    · rw [heq]
      exact recordCycle_goodPair_mono acc hd p q h
    · rw [heq]
      exact h

end ClaimProofsCyclePairA

section ClaimProofsCyclePairB

open RelationshipDetector

variable (nodes : List String) (adj : String → String → Nat)

theorem dfs_records_pair (P Q : String) (hQnodes : Q ∈ nodes) (hPQ : P ≠ Q)
    (hadj : adj P Q > 0) :
    ∀ (fuel : Nat) (x : String) (s : DfsState),
      x ∈ nodes → x ∉ s.visited → unvisited nodes s.visited ≤ fuel →
      dfsInv s → Q ∈ s.recStack → P ∉ s.visited →
      goodPair P Q (dfs nodes adj fuel x s) ∨
        P ∉ (dfs nodes adj fuel x s).visited := by
  intro fuel
  induction fuel with
  | zero =>
    intro x s _ _ _ _ _ hP
    exact Or.inr hP
  | succ f ih =>
    intro x s hxnodes hxvis hfuel hinv hQ hP
    rw [dfs]
    dsimp only
    have hs1inv := dfsInv_push x s hxvis hinv
    have hQs1 : Q ∈ insertAbsent s.recStack x :=
      insertAbsent_mem_of_mem _ x Q hQ
    have hxrec := not_mem_recStack_of_unvisited x s hxvis hinv
    by_cases hxP : x = P
    · subst hxP
      left
      have hQpath : Q ∈ s.path := (hinv.1 Q).1 hQ
      have hfold : ∀ (l : List String) (acc : DfsState), Q ∈ l →
          acc.path = s.path ++ [x] → acc.recStack = x :: s.recStack →
          dfsInv acc →
          goodPair x Q (l.foldl (dfsStep (dfs nodes adj f) adj x) acc) := by
        intro l
        induction l with
        | nil =>
          intro acc h _ _ _
          cases h
        | cons hd tl ihl =>
          intro acc hQl hp hr hi
          rw [List.foldl_cons]
          by_cases hhd : hd = Q
          · subst hhd
            have hrecmem : hd ∈ acc.recStack := by
              rw [hr]
              exact List.mem_cons_of_mem _ hQ
            have hvismem : hd ∈ acc.visited := hi.2 hd ((hi.1 hd).1 hrecmem)
            rcases dfsStep_eq adj (dfs nodes adj f) x hd acc with
              ⟨_, hnv, _⟩ | ⟨_, _, _, heq⟩ | ⟨hbad, _⟩
            · exact absurd hvismem hnv
            · rw [heq]
              apply foldl_dfsStep_goodPair_mono
              obtain ⟨t, hdrop⟩ := drop_idxOf_cons hd s.path hQpath
              have hkey : acc.path.drop (idxOf acc.path hd) = (hd :: t) ++ [x] := by
                rw [hp, idxOf_append_of_mem hd s.path [x] hQpath,
                  List.drop_append_of_le_length
                    (Nat.le_of_lt (idxOf_lt_length hd s.path hQpath)), hdrop]
              apply recordCycle_good
              · rw [hkey]
                exact List.mem_append_left _
                  (List.mem_append_right _ (List.mem_singleton.2 rfl))
              · rw [hkey]
                exact List.mem_append_left _
                  (List.mem_append_left _ (List.mem_cons_self hd t))
            · rcases hbad with hb1 | ⟨_, hb2⟩
              · exact absurd hadj hb1
              · exact absurd hrecmem hb2
          · have hQtl : Q ∈ tl := by
              rcases List.mem_cons.1 hQl with h1 | h2
              · exact absurd h1.symm hhd
              · exact h2
            rcases dfsStep_eq adj (dfs nodes adj f) x hd acc with
              ⟨_, hnv, heq⟩ | ⟨_, _, _, heq⟩ | ⟨_, heq⟩
            · obtain ⟨hp2, hr2, hi2⟩ := dfs_restore nodes adj f hd acc hnv hi
              exact ihl _ hQtl (by rw [heq, hp2, hp]) (by rw [heq, hr2, hr])
                (by rw [heq]; exact hi2)
            · obtain ⟨hv3, hr3, hp3⟩ := recordCycle_fields acc hd
              exact ihl _ hQtl (by rw [heq, hp3, hp]) (by rw [heq, hr3, hr])
                (by rw [heq]; exact dfsInv_congr acc _ hv3 hr3 hp3 hi)
            · exact ihl _ hQtl (by rw [heq, hp]) (by rw [heq, hr])
                (by rw [heq]; exact hi)
      exact hfold nodes _ hQnodes rfl
        (by dsimp only; exact insertAbsent_eq_cons s.recStack x hxrec) hs1inv
    · have hfuel1 : unvisited nodes (insertAbsent s.visited x) ≤ f := by
        have hlt := unvisited_insert_lt nodes x s.visited hxnodes hxvis
        omega
      have hPs1 : P ∉ insertAbsent s.visited x := by
        intro hmem
        rw [insertAbsent_eq_cons s.visited x hxvis] at hmem
        rcases List.mem_cons.1 hmem with h1 | h2
        · exact hxP h1.symm
        · exact hP h2
      have hfold : ∀ (l : List String) (acc : DfsState), (∀ y ∈ l, y ∈ nodes) →
          dfsInv acc → Q ∈ acc.recStack →
          unvisited nodes acc.visited ≤ f →
          (goodPair P Q acc ∨ P ∉ acc.visited) →
          dfsInv (l.foldl (dfsStep (dfs nodes adj f) adj x) acc) ∧
          Q ∈ (l.foldl (dfsStep (dfs nodes adj f) adj x) acc).recStack ∧
          unvisited nodes
            (l.foldl (dfsStep (dfs nodes adj f) adj x) acc).visited ≤ f ∧
          (goodPair P Q (l.foldl (dfsStep (dfs nodes adj f) adj x) acc) ∨
            P ∉ (l.foldl (dfsStep (dfs nodes adj f) adj x) acc).visited) := by
        intro l
        induction l with
        | nil =>
          intro acc _ hi hQa hfa hda
          exact ⟨hi, hQa, hfa, hda⟩
        | cons hd tl ihl =>
          intro acc hl hi hQa hfa hda
          rw [List.foldl_cons]
          rcases dfsStep_eq adj (dfs nodes adj f) x hd acc with
            ⟨_, hnv, heq⟩ | ⟨_, _, _, heq⟩ | ⟨_, heq⟩
          · obtain ⟨hp2, hr2, hi2⟩ := dfs_restore nodes adj f hd acc hnv hi
            have hcnt : unvisited nodes (dfs nodes adj f hd acc).visited ≤ f :=
              Nat.le_trans
                (unvisited_mono nodes acc.visited _
                  (fun y hy => dfs_visited_mono nodes adj f hd acc y hy))
                hfa
            have hda2 : goodPair P Q (dfs nodes adj f hd acc) ∨
                P ∉ (dfs nodes adj f hd acc).visited := by
              rcases hda with hg | hnp
              · exact Or.inl (goodPair_mono nodes adj P Q f hd acc hg)
              · exact ih hd acc (hl hd (List.mem_cons_self hd tl)) hnv hfa hi
                  hQa hnp
            refine ihl _ (fun y hy => hl y (List.mem_cons_of_mem _ hy)) ?_ ?_ ?_ ?_
            · rw [heq]
              exact hi2
            · rw [heq, hr2]
              exact hQa
            · rw [heq]
              exact hcnt
            · rw [heq]
              exact hda2
          · obtain ⟨hv3, hr3, hp3⟩ := recordCycle_fields acc hd
            refine ihl _ (fun y hy => hl y (List.mem_cons_of_mem _ hy)) ?_ ?_ ?_ ?_
            · rw [heq]
              exact dfsInv_congr acc _ hv3 hr3 hp3 hi
            · rw [heq, hr3]
              exact hQa
            · rw [heq, hv3]
              exact hfa
            · rw [heq]
              rcases hda with hg | hnp
              · exact Or.inl (recordCycle_goodPair_mono acc hd P Q hg)
              · rw [hv3]
                exact Or.inr hnp
          · rw [heq]
            exact ihl _ (fun y hy => hl y (List.mem_cons_of_mem _ hy)) hi hQa
              hfa hda
      obtain ⟨_, _, _, hdisj⟩ := hfold nodes
        ⟨insertAbsent s.visited x, insertAbsent s.recStack x, s.path ++ [x],
          s.cycles⟩ (fun y hy => hy) hs1inv hQs1 hfuel1 (Or.inr hPs1)
      rcases hdisj with hg | hnp
      · exact Or.inl hg
      · exact Or.inr hnp

end ClaimProofsCyclePairB

section ClaimProofsCyclePairC

open RelationshipDetector

variable (nodes : List String) (adj : String → String → Nat)

theorem goodPair_swap {p q : String} {s : DfsState} (h : goodPair p q s) :
    goodPair q p s := by
  obtain ⟨c, hc, h1, h2⟩ := h
  exact ⟨c, hc, h2, h1⟩

theorem dfs_on_cycle_node (R S : String) (hR : R ∈ nodes) (hS : S ∈ nodes)
    (hRS : R ≠ S) (hadjRS : adj R S > 0) (hadjSR : adj S R > 0) :
    ∀ (f : Nat) (s : DfsState), R ∉ s.visited → S ∉ s.visited →
      unvisited nodes s.visited ≤ f + 1 → dfsInv s →
      goodPair R S (dfs nodes adj (f + 1) R s) := by
  intro f s hRvis hSvis hfuel hinv
  rw [dfs]
  have hs1inv := dfsInv_push R s hRvis hinv
  have hRrec := not_mem_recStack_of_unvisited R s hRvis hinv
  have hH2 := dfs_records_pair nodes adj S R hR (Ne.symm hRS) hadjSR
  have hfuel1 : unvisited nodes (insertAbsent s.visited R) ≤ f := by
    have hlt := unvisited_insert_lt nodes R s.visited hR hRvis
    omega
  have hfold : ∀ (l : List String) (acc : DfsState), (∀ y ∈ l, y ∈ nodes) →
      S ∈ l → dfsInv acc → R ∈ acc.recStack →
      unvisited nodes acc.visited ≤ f →
      (goodPair R S acc ∨ S ∉ acc.visited) →
      goodPair R S (l.foldl (dfsStep (dfs nodes adj f) adj R) acc) := by
    intro l
    induction l with
    | nil =>
      intro acc _ hSl _ _ _ _
      cases hSl
    | cons hd tl ihl =>
      intro acc hl hSl hi hQa hfa hda
      rw [List.foldl_cons]
      by_cases hhd : hd = S
      · subst hhd
        rcases dfsStep_eq adj (dfs nodes adj f) R hd acc with
          ⟨_, hnv, heq⟩ | ⟨_, hvmem, _, heq⟩ | ⟨hbad, heq⟩
        · rw [heq]
          apply foldl_dfsStep_goodPair_mono
          have hres := hH2 f hd acc (hl hd (List.mem_cons_self hd tl)) hnv hfa
            hi hQa hnv
          have hf1 : 1 ≤ f :=
            Nat.le_trans (unvisited_pos nodes hd acc.visited
              (hl hd (List.mem_cons_self hd tl)) hnv) hfa
          obtain ⟨f', rfl⟩ : ∃ f', f = f' + 1 := by
            cases f with
            | zero => cases hf1
            | succ f' => exact ⟨f', rfl⟩
          rcases hres with hg | hnp
          · exact goodPair_swap hg
          · exact absurd (dfs_visits_self nodes adj f' hd acc) hnp
        · rw [heq]
          apply foldl_dfsStep_goodPair_mono
          rcases hda with hg | hnp
          · exact recordCycle_goodPair_mono acc hd R hd hg
          · exact absurd hvmem hnp
        · rw [heq]
          rcases hbad with hb1 | ⟨hvmem, _⟩
          · exact absurd hadjRS hb1
          · rcases hda with hg | hnp
            · exact foldl_dfsStep_goodPair_mono nodes adj f R R hd tl acc hg
            · exact absurd hvmem hnp
      · have hStl : S ∈ tl := by
          rcases List.mem_cons.1 hSl with h1 | h2
          · exact absurd h1.symm hhd
          · exact h2
        rcases dfsStep_eq adj (dfs nodes adj f) R hd acc with
          ⟨_, hnv, heq⟩ | ⟨_, _, _, heq⟩ | ⟨_, heq⟩
        · obtain ⟨hp2, hr2, hi2⟩ := dfs_restore nodes adj f hd acc hnv hi
          have hcnt : unvisited nodes (dfs nodes adj f hd acc).visited ≤ f :=
            Nat.le_trans
              (unvisited_mono nodes acc.visited _
                (fun y hy => dfs_visited_mono nodes adj f hd acc y hy))
              hfa
          have hda2 : goodPair R S (dfs nodes adj f hd acc) ∨
              S ∉ (dfs nodes adj f hd acc).visited := by
            rcases hda with hg | hnp
            · exact Or.inl (goodPair_mono nodes adj R S f hd acc hg)
            · rcases hH2 f hd acc (hl hd (List.mem_cons_self hd tl)) hnv hfa
                hi hQa hnp with hg2 | hnp2
              · exact Or.inl (goodPair_swap hg2)
              · exact Or.inr hnp2
          refine ihl _ (fun y hy => hl y (List.mem_cons_of_mem _ hy)) hStl ?_ ?_ ?_ ?_
          · rw [heq]
            exact hi2
          · rw [heq, hr2]
            exact hQa
          · rw [heq]
            exact hcnt
          · rw [heq]
            exact hda2
        · obtain ⟨hv3, hr3, hp3⟩ := recordCycle_fields acc hd
          refine ihl _ (fun y hy => hl y (List.mem_cons_of_mem _ hy)) hStl ?_ ?_ ?_ ?_
          · rw [heq]
            exact dfsInv_congr acc _ hv3 hr3 hp3 hi
          · rw [heq, hr3]
            exact hQa
          · rw [heq, hv3]
            exact hfa
          · rw [heq]
            rcases hda with hg | hnp
            · exact Or.inl (recordCycle_goodPair_mono acc hd R S hg)
            · rw [hv3]
              exact Or.inr hnp
        · rw [heq]
          exact ihl _ (fun y hy => hl y (List.mem_cons_of_mem _ hy)) hStl hi
            hQa hfa hda
  have hSs1 : S ∉ insertAbsent s.visited R := by
    intro hmem
    rw [insertAbsent_eq_cons s.visited R hRvis] at hmem
    rcases List.mem_cons.1 hmem with h1 | h2
    · exact hRS h1.symm
    · exact hSvis h2
  exact hfold nodes
    ⟨insertAbsent s.visited R, insertAbsent s.recStack R, s.path ++ [R], s.cycles⟩
    (fun y hy => hy) hS hs1inv
    (by dsimp only; exact insertAbsent_self_mem s.recStack R) hfuel1
    (Or.inr hSs1)

end ClaimProofsCyclePairC

section ClaimProofsCyclePairD

open RelationshipDetector

variable (nodes : List String) (adj : String → String → Nat)

theorem dfs_first_visit (A B : String) (hA : A ∈ nodes) (hB : B ∈ nodes)
    (hAB : A ≠ B) (hadjAB : adj A B > 0) (hadjBA : adj B A > 0) :
    ∀ (fuel : Nat) (x : String) (s : DfsState),
      x ∈ nodes → x ∉ s.visited → unvisited nodes s.visited ≤ fuel →
      dfsInv s → A ∉ s.visited → B ∉ s.visited →
      goodPair A B (dfs nodes adj fuel x s) ∨
        (A ∉ (dfs nodes adj fuel x s).visited ∧
         B ∉ (dfs nodes adj fuel x s).visited) := by
  intro fuel
  induction fuel with
  | zero =>
    intro x s _ _ _ _ hAv hBv
    exact Or.inr ⟨hAv, hBv⟩
  | succ f ih =>
    intro x s hxn hxv hfl hinv hAv hBv
    by_cases hxA : x = A
    · subst hxA
      exact Or.inl
        (dfs_on_cycle_node nodes adj x B hxn hB hAB hadjAB hadjBA f s hxv hBv
          hfl hinv)
    · by_cases hxB : x = B
      · subst hxB
        exact Or.inl (goodPair_swap
          (dfs_on_cycle_node nodes adj x A hxn hA hxA hadjBA hadjAB f s hxv hAv
            hfl hinv))
      · rw [dfs]
        dsimp only
        have hs1inv := dfsInv_push x s hxv hinv
        have hfuel1 : unvisited nodes (insertAbsent s.visited x) ≤ f := by
          have hlt := unvisited_insert_lt nodes x s.visited hxn hxv
          omega
        have hAs1 : A ∉ insertAbsent s.visited x := by
          intro hmem
          rw [insertAbsent_eq_cons s.visited x hxv] at hmem
          rcases List.mem_cons.1 hmem with h1 | h2
          · exact hxA h1.symm
          · exact hAv h2
        have hBs1 : B ∉ insertAbsent s.visited x := by
          intro hmem
          rw [insertAbsent_eq_cons s.visited x hxv] at hmem
          rcases List.mem_cons.1 hmem with h1 | h2
          · exact hxB h1.symm
          · exact hBv h2
        have hfold : ∀ (l : List String) (acc : DfsState),
            (∀ y ∈ l, y ∈ nodes) → dfsInv acc →
            unvisited nodes acc.visited ≤ f →
            (goodPair A B acc ∨ (A ∉ acc.visited ∧ B ∉ acc.visited)) →
            dfsInv (l.foldl (dfsStep (dfs nodes adj f) adj x) acc) ∧
            unvisited nodes
              (l.foldl (dfsStep (dfs nodes adj f) adj x) acc).visited ≤ f ∧
            (goodPair A B (l.foldl (dfsStep (dfs nodes adj f) adj x) acc) ∨
              (A ∉ (l.foldl (dfsStep (dfs nodes adj f) adj x) acc).visited ∧
               B ∉ (l.foldl (dfsStep (dfs nodes adj f) adj x) acc).visited)) := by
          intro l
          induction l with
          | nil =>
            intro acc _ hi hfa hda
            exact ⟨hi, hfa, hda⟩
          | cons hd tl ihl =>
            intro acc hl hi hfa hda
            rw [List.foldl_cons]
            rcases dfsStep_eq adj (dfs nodes adj f) x hd acc with
              ⟨_, hnv, heq⟩ | ⟨_, _, _, heq⟩ | ⟨_, heq⟩
            · have hcnt : unvisited nodes (dfs nodes adj f hd acc).visited ≤ f :=
                Nat.le_trans
                  (unvisited_mono nodes acc.visited _
                    (fun y hy => dfs_visited_mono nodes adj f hd acc y hy))
                  hfa
              have hda2 : goodPair A B (dfs nodes adj f hd acc) ∨
                  (A ∉ (dfs nodes adj f hd acc).visited ∧
                   B ∉ (dfs nodes adj f hd acc).visited) := by
                rcases hda with hg | ⟨hna, hnb⟩
                · exact Or.inl (goodPair_mono nodes adj A B f hd acc hg)
                · exact ih hd acc (hl hd (List.mem_cons_self hd tl)) hnv hfa hi
                    hna hnb
              obtain ⟨_, _, hi2⟩ := dfs_restore nodes adj f hd acc hnv hi
              refine ihl _ (fun y hy => hl y (List.mem_cons_of_mem _ hy))
                ?_ ?_ ?_
              · rw [heq]
                exact hi2
              · rw [heq]
                exact hcnt
              · rw [heq]
                exact hda2
            · obtain ⟨hv3, hr3, hp3⟩ := recordCycle_fields acc hd
              refine ihl _ (fun y hy => hl y (List.mem_cons_of_mem _ hy))
                ?_ ?_ ?_
              · rw [heq]
                exact dfsInv_congr acc _ hv3 hr3 hp3 hi
              · rw [heq, hv3]
                exact hfa
              · rw [heq]
                rcases hda with hg | ⟨hna, hnb⟩
                · exact Or.inl (recordCycle_goodPair_mono acc hd A B hg)
                · rw [hv3]
                  exact Or.inr ⟨hna, hnb⟩
            · rw [heq]
              exact ihl _ (fun y hy => hl y (List.mem_cons_of_mem _ hy)) hi
                hfa hda
        obtain ⟨_, _, hdisj⟩ := hfold nodes
          ⟨insertAbsent s.visited x, insertAbsent s.recStack x, s.path ++ [x],
            s.cycles⟩ (fun y hy => hy) hs1inv hfuel1 (Or.inr ⟨hAs1, hBs1⟩)
        rcases hdisj with hg | hab
        · exact Or.inl hg
        · exact Or.inr hab

end ClaimProofsCyclePairD

section ClaimProofsCycleMain

open RelationshipDetector

/-- C5: whenever the dependency matrix has a two-node cycle — nonzero
entries both ways between distinct keys `A` and `B` — the cycle-detection
operation reports at least one cycle passing through both `A` and `B`,
whatever the DFS root order (the key list) is. -/
theorem c5_two_node_cycle_detected :
    ∀ (nodes : List String) (adj : String → String → Nat) (A B : String),
      A ∈ nodes → B ∈ nodes → A ≠ B → adj A B > 0 → adj B A > 0 →
      ∃ c ∈ detect_circular_dependencies nodes adj, A ∈ c ∧ B ∈ c := by
  intro nodes adj A B hA hB hAB hab hba
  unfold detect_circular_dependencies
  have hdrv : ∀ (l : List String) (s : DfsState), (∀ y ∈ l, y ∈ nodes) →
      dfsInv s →
      (goodPair A B s ∨ (A ∉ s.visited ∧ B ∉ s.visited)) →
      dfsInv (l.foldl (fun s root =>
        if root ∉ s.visited then dfs nodes adj (nodes.length + 1) root s else s)
        s) ∧
      (goodPair A B (l.foldl (fun s root =>
        if root ∉ s.visited then dfs nodes adj (nodes.length + 1) root s else s)
        s) ∨
        (A ∉ (l.foldl (fun s root =>
          if root ∉ s.visited then dfs nodes adj (nodes.length + 1) root s
          else s) s).visited ∧
         B ∉ (l.foldl (fun s root =>
          if root ∉ s.visited then dfs nodes adj (nodes.length + 1) root s
          else s) s).visited)) ∧
      (∀ y ∈ s.visited, y ∈ (l.foldl (fun s root =>
        if root ∉ s.visited then dfs nodes adj (nodes.length + 1) root s else s)
        s).visited) ∧
      (A ∈ l → A ∈ (l.foldl (fun s root =>
        if root ∉ s.visited then dfs nodes adj (nodes.length + 1) root s else s)
        s).visited) := by
    intro l
    induction l with
    | nil =>
      intro s _ hi hda
      exact ⟨hi, hda, fun y hy => hy, fun hAl => absurd hAl (List.not_mem_nil A)⟩
    | cons hd tl ihl =>
      intro s hl hi hda
      rw [List.foldl_cons]
      by_cases hv : hd ∉ s.visited
      · rw [if_pos hv]
        have hfl : unvisited nodes s.visited ≤ nodes.length + 1 :=
          Nat.le_trans (unvisited_le_len nodes s.visited) (Nat.le_succ _)
        have hda2 : goodPair A B (dfs nodes adj (nodes.length + 1) hd s) ∨
            (A ∉ (dfs nodes adj (nodes.length + 1) hd s).visited ∧
             B ∉ (dfs nodes adj (nodes.length + 1) hd s).visited) := by
          rcases hda with hg | ⟨hna, hnb⟩
          · exact Or.inl (goodPair_mono nodes adj A B _ hd s hg)
          · exact dfs_first_visit nodes adj A B hA hB hAB hab hba
              (nodes.length + 1) hd s (hl hd (List.mem_cons_self hd tl)) hv hfl
              hi hna hnb
        obtain ⟨_, _, hi2⟩ := dfs_restore nodes adj (nodes.length + 1) hd s hv hi
        obtain ⟨hI, hD, hM, hAf⟩ := ihl (dfs nodes adj (nodes.length + 1) hd s)
          (fun y hy => hl y (List.mem_cons_of_mem _ hy)) hi2 hda2
        refine ⟨hI, hD, ?_, ?_⟩
        · intro y hy
          exact hM y (dfs_visited_mono nodes adj _ hd s y hy)
        · intro hAl
          rcases List.mem_cons.1 hAl with h1 | h2
          · subst h1
            exact hM A (dfs_visits_self nodes adj nodes.length A s)
          · exact hAf h2
      · rw [if_neg hv]
        rw [not_not] at hv
        obtain ⟨hI, hD, hM, hAf⟩ := ihl s
          (fun y hy => hl y (List.mem_cons_of_mem _ hy)) hi hda
        refine ⟨hI, hD, hM, ?_⟩
        intro hAl
        rcases List.mem_cons.1 hAl with h1 | h2
        · subst h1
          exact hM A hv
        · exact hAf h2
  have hinv0 : dfsInv ⟨[], [], [], []⟩ := by
    constructor
    · intro y
      simp
    · intro y hy
      cases hy
  obtain ⟨_, hdisj, _, hAfin⟩ := hdrv nodes ⟨[], [], [], []⟩ (fun y hy => hy)
    hinv0 (Or.inr ⟨List.not_mem_nil A, List.not_mem_nil B⟩)
  have hAv := hAfin hA
  rcases hdisj with hg | ⟨hna, _⟩
  · exact hg
  · exact absurd hAv hna

/-- Witness for C5 on the concrete two-node matrix with edges both ways. -/
theorem c5_two_node_cycle_detected_witness :
    ∃ c ∈ detect_circular_dependencies ["a", "b"]
      (fun x y =>
        if x = "a" ∧ y = "b" then 1 else if x = "b" ∧ y = "a" then 1 else 0),
      "a" ∈ c ∧ "b" ∈ c :=
  c5_two_node_cycle_detected ["a", "b"]
    (fun x y =>
      if x = "a" ∧ y = "b" then 1 else if x = "b" ∧ y = "a" then 1 else 0)
    "a" "b" (by decide) (by decide) (by decide) (by decide) (by decide)

end ClaimProofsCycleMain

section ClaimProofsExtraWitnesses

/-- Witness for C6 applied at a concrete response and count. -/
theorem c6_numbered_list_decoder_witness :
    (LLMService._parse_numbered_list "no numbering here" 2).length = 2 :=
  c6_numbered_list_decoder.1 "no numbering here" 2

/-- Witness for C8 applied at concrete repository ids. -/
theorem c8_call_graph_ignores_repo_witness :
    RelationshipDetector.get_call_graph Models.twoRepoDB 5 =
      RelationshipDetector.get_call_graph Models.twoRepoDB 7 :=
  c8_call_graph_ignores_repo.1 Models.twoRepoDB 5 7

end ClaimProofsExtraWitnesses
